import Mathlib

/-!
# Verification of the CPU-scheduler simulator core (`sim.py`)

This file gives a shallow embedding of the simulator core of the repository:
the `ThreadState` enumeration, the `SimThread` class and the `Scheduler`
class with its per-tick `step` algorithm.  Python object references are
modelled by a heap `store : Nat → SimThread` together with indices; the
scheduler's collections (`ready_queue`, `blocked`, `running`, `all_threads`)
hold such indices, matching the reference semantics of the source where one
object may be reachable from several collections at once.
-/

set_option maxRecDepth 10000

namespace Sim

/-- Thread lifecycle states, mirroring the `ThreadState` enum of `sim.py`.
The source switches between enum members and their string values; both
representations collapse onto this single closed type. -/
inductive ThreadState
  | NEW
  | READY
  | RUNNING
  | BLOCKED
  | TERMINATED
deriving DecidableEq

/-- Mirrors class `SimThread`: identity, workload, state, burst countdown and
the `(tick, state)` timeline.  The `threading.Lock` field is irrelevant to the
sequential stepping semantics and is omitted. -/
structure SimThread where
  tid : Nat
  bursts : List (Int × Int)
  state : ThreadState
  current_burst_remaining : Int
  timeline : List (Nat × ThreadState)
deriving DecidableEq

namespace SimThread

/-- Mirrors `SimThread.start_ready`: only a `NEW` thread moves to `READY` and
loads `bursts[0][0]` into the countdown. -/
def start_ready (t : SimThread) : SimThread :=
  if t.state = ThreadState.NEW then
    { t with state := ThreadState.READY,
             current_burst_remaining := (t.bursts.headD (0, 0)).1 }
  else t

/-- Mirrors `SimThread.to_running`. -/
def to_running (t : SimThread) : SimThread := { t with state := ThreadState.RUNNING }

/-- Mirrors `SimThread.to_blocked`. -/
def to_blocked (t : SimThread) : SimThread := { t with state := ThreadState.BLOCKED }

/-- Mirrors `SimThread.to_ready`. -/
def to_ready (t : SimThread) : SimThread := { t with state := ThreadState.READY }

/-- Mirrors `SimThread.terminate`. -/
def terminate (t : SimThread) : SimThread := { t with state := ThreadState.TERMINATED }

end SimThread

/-- Event kinds put on the scheduler's event queue, with the thread-reference
payload where the source passes one. -/
inductive Event
  | added (i : Nat)
  | unblocked (i : Nat)
  | running (i : Nat)
  | blocked (i : Nat)
  | ready (i : Nat)
  | terminated (i : Nat)
  | tick
  | finished
deriving DecidableEq

/-- Mirrors class `Scheduler`.  `store` and `next_id` model the heap of
`SimThread` objects; every collection stores references (heap indices). -/
structure Scheduler where
  model : String
  cpu_cores : Int
  quantum : Int
  ready_queue : List Nat
  blocked : List (Nat × Int)
  running : List Nat
  all_threads : List Nat
  time : Nat
  event_queue : List (Nat × Event)
  running_flag : Bool
  store : Nat → SimThread
  next_id : Nat

namespace Scheduler

/-- Dereference a thread object. -/
def getTh (σ : Scheduler) (i : Nat) : SimThread := σ.store i

/-- Overwrite a thread object in the heap. -/
def setTh (σ : Scheduler) (i : Nat) (t : SimThread) : Scheduler :=
  { σ with store := Function.update σ.store i t }

/-- Mirrors `Scheduler.__init__` (defaults of the source:
`model='Many-to-Many', cpu_cores=1, quantum=1`).  Note that the constructor
performs no validation of `cpu_cores`. -/
def init (model : String) (cpu_cores : Int) (quantum : Int) : Scheduler :=
  { model := model, cpu_cores := cpu_cores, quantum := quantum,
    ready_queue := [], blocked := [], running := [], all_threads := [],
    time := 0, event_queue := [], running_flag := false,
    store := fun _ => ⟨0, [], ThreadState.NEW, 0, []⟩, next_id := 0 }

/-- Mirrors `Scheduler._emit`. -/
def emit (σ : Scheduler) (ev : Event) : Scheduler :=
  { σ with event_queue := σ.event_queue ++ [(σ.time, ev)] }

/-- Mirrors `Scheduler.add_thread` applied to the existing object `i`:
append to `all_threads`, `start_ready`, push onto `ready_queue`, emit
`added`. -/
def add_thread (σ : Scheduler) (i : Nat) : Scheduler :=
  let σ := { σ with all_threads := σ.all_threads ++ [i] }
  let σ := σ.setTh i (σ.getTh i).start_ready
  let σ := { σ with ready_queue := σ.ready_queue ++ [i] }
  σ.emit (Event.added i)

/-- Allocate a fresh `SimThread` object (the `SimThread` constructor: state
`NEW`, countdown `0`, empty timeline) and register it via `add_thread`. -/
def addNew (σ : Scheduler) (tid : Nat) (bursts : List (Int × Int)) : Scheduler :=
  let i := σ.next_id
  let σ := { σ with
    store := Function.update σ.store i ⟨tid, bursts, ThreadState.NEW, 0, []⟩,
    next_id := i + 1 }
  σ.add_thread i

/-- Mirrors `Scheduler.stop`. -/
def stop (σ : Scheduler) : Scheduler := { σ with running_flag := false }

/-- Mirrors `Scheduler.reset`: stop, clear the clock, all collections and the
event queue (heap objects themselves are merely unregistered). -/
def reset (σ : Scheduler) : Scheduler :=
  let σ := σ.stop
  { σ with time := 0, ready_queue := [], blocked := [], running := [],
           all_threads := [], event_queue := [] }

/-- One iteration of the IO-unblocking loop of `Scheduler.step` (phase 1).
The accumulator threads the scheduler together with the `new_ready` and
`still_blocked` lists being built. -/
def ioStep (acc : Scheduler × List Nat × List (Nat × Int)) (p : Nat × Int) :
    Scheduler × List Nat × List (Nat × Int) :=
  if p.2 - 1 ≤ 0 then
    let σ := acc.1.setTh p.1 (acc.1.getTh p.1).to_ready
    (σ.emit (Event.unblocked p.1), acc.2.1 ++ [p.1], acc.2.2)
  else
    (acc.1, acc.2.1, acc.2.2 ++ [(p.1, p.2 - 1)])

/-- Phase 1 of `Scheduler.step`: decrement every blocked thread's remaining
IO, move the finished ones to the tail of the ready queue. -/
def ioPhase (σ : Scheduler) : Scheduler :=
  let r := σ.blocked.foldl ioStep (σ, [], [])
  let σ1 := { r.1 with blocked := r.2.2 }
  { σ1 with ready_queue := σ1.ready_queue ++ r.2.1 }

/-- The `for _ in range(vacancies)` loop of phase 2. -/
def dispatchLoop : Nat → Scheduler → Scheduler
  | 0, σ => σ
  | n + 1, σ =>
    match σ.ready_queue with
    | [] => dispatchLoop n σ
    | i :: rest =>
      let σ := { σ with ready_queue := rest }
      let σ := σ.setTh i (σ.getTh i).to_running
      let σ := { σ with running := σ.running ++ [i] }
      dispatchLoop n (σ.emit (Event.running i))

/-- Phase 2 of `Scheduler.step`: defensively filter `running` down to the
threads still in state `RUNNING`, then fill the vacancies from the head of
the ready queue. -/
def dispatchPhase (σ : Scheduler) : Scheduler :=
  let σ := { σ with
    running := σ.running.filter fun i => decide ((σ.getTh i).state = ThreadState.RUNNING) }
  dispatchLoop (σ.cpu_cores - (σ.running.length : Int)).toNat σ

/-- The body of the execution loop of phase 3, for one running thread `i`:
decrement the countdown, record the timeline sample, and on burst completion
either pop-and-block, pop-and-requeue, or terminate. -/
def execOne (σ : Scheduler) (i : Nat) : Scheduler :=
  let t := σ.getTh i
  let t := { t with current_burst_remaining := t.current_burst_remaining - 1 }
  let t := { t with timeline := t.timeline ++ [(σ.time, t.state)] }
  let σ := σ.setTh i t
  if t.current_burst_remaining ≤ 0 then
    if 1 < t.bursts.length then
      let t2 := { t with bursts := t.bursts.tail }
      let ioLen := (t2.bursts.headD (0, 0)).2
      if 0 < ioLen then
        let σ := σ.setTh i t2.to_blocked
        let σ := { σ with blocked := σ.blocked ++ [(i, ioLen)] }
        σ.emit (Event.blocked i)
      else
        let σ := σ.setTh i
          { t2.to_ready with current_burst_remaining := (t2.bursts.headD (0, 0)).1 }
        let σ := { σ with ready_queue := σ.ready_queue ++ [i] }
        σ.emit (Event.ready i)
    else
      (σ.setTh i t.terminate).emit (Event.terminated i)
  else σ

/-- Phase 3 of `Scheduler.step`: one unit of execution for every thread in the
`running` snapshot (the source iterates `list(self.running)`; the loop body
never mutates `self.running`). -/
def execPhase (σ : Scheduler) : Scheduler := σ.running.foldl execOne σ

/-- The completion scan of `Scheduler.step`: all registered threads
`TERMINATED`. -/
def allTerminated (σ : Scheduler) : Bool :=
  σ.all_threads.all fun i => decide ((σ.getTh i).state = ThreadState.TERMINATED)

/-- The final completion check of `Scheduler.step`: guarded by
`if self.all_threads:`; on completion it stops the loop and emits
`finished`. -/
def completionCheck (σ : Scheduler) : Scheduler :=
  if σ.all_threads.isEmpty then σ
  else if allTerminated σ then (σ.stop).emit Event.finished
  else σ

/-- Mirrors `Scheduler.step`: bump the clock, then the four phases and the
completion check. -/
def step (σ : Scheduler) : Scheduler :=
  let σ := { σ with time := σ.time + 1 }
  let σ := ioPhase σ
  let σ := dispatchPhase σ
  let σ := execPhase σ
  completionCheck (σ.emit Event.tick)

end Scheduler

/-- Iterated stepping. -/
def stepN (n : Nat) (σ : Scheduler) : Scheduler := Scheduler.step^[n] σ

/-- One iteration of the `Scheduler.run` loop body, guarded by
`running_flag` exactly as `while self.running_flag: self.step()` is. -/
def guardedStep (σ : Scheduler) : Scheduler := if σ.running_flag then σ.step else σ

/-- `n` iterations of the guarded run loop. -/
def runN (n : Nat) (σ : Scheduler) : Scheduler := guardedStep^[n] σ

/-- Number of `finished` events on the event queue. -/
def countFinished (σ : Scheduler) : Nat :=
  σ.event_queue.countP fun e => decide (e.2 = Event.finished)

/-- The completion condition of the final check of `step`: a non-empty
registry whose threads are all `TERMINATED`. -/
def allDone (σ : Scheduler) : Prop :=
  σ.all_threads ≠ [] ∧ Scheduler.allTerminated σ = true

instance (σ : Scheduler) : Decidable (allDone σ) := by
  unfold allDone; infer_instance

/-- Scheduler states arising from the public API of the source: construction,
registration of freshly constructed threads (non-empty workload, as
`rand_bursts` always produces), stepping, and the run-loop flag updates. -/
inductive Reachable : Scheduler → Prop
  | init (model : String) (cpu_cores quantum : Int) :
      Reachable (Scheduler.init model cpu_cores quantum)
  | add {σ : Scheduler} (tid : Nat) (bursts : List (Int × Int)) :
      bursts ≠ [] → Reachable σ → Reachable (σ.addNew tid bursts)
  | step {σ : Scheduler} : Reachable σ → Reachable σ.step
  | run_start {σ : Scheduler} : Reachable σ → Reachable { σ with running_flag := true }
  | halt {σ : Scheduler} : Reachable σ → Reachable σ.stop
  | reset {σ : Scheduler} : Reachable σ → Reachable σ.reset

/-- Exactly one of four alternatives holds. -/
def exactlyOne (a b c d : Prop) : Prop :=
  (a ∧ ¬ b ∧ ¬ c ∧ ¬ d) ∨ (¬ a ∧ b ∧ ¬ c ∧ ¬ d) ∨
  (¬ a ∧ ¬ b ∧ c ∧ ¬ d) ∨ (¬ a ∧ ¬ b ∧ ¬ c ∧ d)

/-- The references unblocked by one pass of phase 1 over the blocked list
`l` (those whose decremented remaining IO is `≤ 0`), in list order. -/
def unb (l : List (Nat × Int)) : List Nat :=
  (l.filter fun p => decide (p.2 - 1 ≤ 0)).map Prod.fst

/-- The surviving blocked list after one pass of phase 1 over `l`: the
entries with positive decremented remaining IO, decremented. -/
def keep (l : List (Nat × Int)) : List (Nat × Int) :=
  (l.filter fun p => !decide (p.2 - 1 ≤ 0)).map fun p => (p.1, p.2 - 1)

/-- Every registered timeline entry is strictly older than the clock; this
holds right after the clock bump at the top of `step`. -/
def TlLt (σ : Scheduler) : Prop :=
  ∀ i ∈ σ.all_threads, ∀ e ∈ (σ.getTh i).timeline, e.1 < σ.time

/-- The scheduler's placement invariant, maintained between `step` calls.
The `running` list may retain stale references to threads that left the
`RUNNING` state during the most recent execution phase (the source removes
them only in the next step's defensive filter), so membership in `running`
characterises the `RUNNING` state only in the direction stated by
`running_mem`. -/
structure Inv (σ : Scheduler) : Prop where
  reg_lt : ∀ i ∈ σ.all_threads, i < σ.next_id
  reg_nodup : σ.all_threads.Nodup
  rq_reg : ∀ i ∈ σ.ready_queue, i ∈ σ.all_threads
  bl_reg : ∀ p ∈ σ.blocked, p.1 ∈ σ.all_threads
  run_reg : ∀ i ∈ σ.running, i ∈ σ.all_threads
  rq_nodup : σ.ready_queue.Nodup
  bl_nodup : (σ.blocked.map Prod.fst).Nodup
  run_nodup : σ.running.Nodup
  ready_iff : ∀ i ∈ σ.all_threads,
    ((σ.getTh i).state = ThreadState.READY ↔ i ∈ σ.ready_queue)
  blocked_iff : ∀ i ∈ σ.all_threads,
    ((σ.getTh i).state = ThreadState.BLOCKED ↔ i ∈ σ.blocked.map Prod.fst)
  running_mem : ∀ i ∈ σ.all_threads,
    (σ.getTh i).state = ThreadState.RUNNING → i ∈ σ.running
  not_new : ∀ i ∈ σ.all_threads, (σ.getTh i).state ≠ ThreadState.NEW
  bursts_ne : ∀ i ∈ σ.all_threads, (σ.getTh i).bursts ≠ []
  tl_run : ∀ i ∈ σ.all_threads, ∀ e ∈ (σ.getTh i).timeline, e.2 = ThreadState.RUNNING
  tl_le : ∀ i ∈ σ.all_threads, ∀ e ∈ (σ.getTh i).timeline, e.1 ≤ σ.time
  tl_chain : ∀ i ∈ σ.all_threads, ((σ.getTh i).timeline.map Prod.fst).Chain' (· < ·)
  run_le : (σ.running.length : Int) ≤ σ.cpu_cores ∨ σ.running = []

/-- Scenario of the spec: 1 core, a single thread with workload
`[(1,2),(1,0)]`. -/
def scenarioIoThread : Scheduler := (Scheduler.init "Many-to-Many" 1 1).addNew 0 [(1, 2), (1, 0)]

/-- Scenario of the spec: 1 core, thread A `[(2,0)]` added before thread B
`[(2,0)]`. -/
def scenarioTwo : Scheduler :=
  ((Scheduler.init "Many-to-Many" 1 1).addNew 0 [(2, 0)]).addNew 1 [(2, 0)]

/-- Minimal scenario: 1 core, a single thread with workload `[(1,0)]`. -/
def scenarioOne : Scheduler := (Scheduler.init "Many-to-Many" 1 1).addNew 0 [(1, 0)]

/-- A scheduler constructed with `cpu_cores = 0` and one registered
thread. -/
def scenarioZero : Scheduler := (Scheduler.init "Many-to-Many" 0 1).addNew 0 [(1, 0)]

/-- A mid-step state: one dispatched thread with a multi-burst workload and
an exhausted countdown, about to go through the execution-loop body. -/
def scenarioExec : Scheduler :=
  { model := "Many-to-Many", cpu_cores := 1, quantum := 1,
    ready_queue := [], blocked := [], running := [0], all_threads := [0],
    time := 1, event_queue := [], running_flag := false,
    store := fun _ => ⟨0, [(1, 9), (2, 5), (1, 0)], ThreadState.RUNNING, 0, []⟩,
    next_id := 1 }

end Sim

namespace Sim

/-! ## Basic lemmas about the embedding -/

theorem SimThread.start_ready_of_ne {t : SimThread} (h : t.state ≠ ThreadState.NEW) :
    t.start_ready = t := by
  unfold SimThread.start_ready
  simp [h]

theorem SimThread.to_ready_idem (t : SimThread) : t.to_ready.to_ready = t.to_ready := rfl

theorem SimThread.to_running_idem (t : SimThread) : t.to_running.to_running = t.to_running := rfl

theorem Scheduler.getTh_setTh_same (σ : Scheduler) (i : Nat) (t : SimThread) :
    (σ.setTh i t).getTh i = t := by
  simp [Scheduler.getTh, Scheduler.setTh]

theorem Scheduler.getTh_setTh_ne (σ : Scheduler) {i j : Nat} (t : SimThread) (h : j ≠ i) :
    (σ.setTh i t).getTh j = σ.getTh j := by
  simp [Scheduler.getTh, Scheduler.setTh, Function.update_noteq h]

/-! ## Claim C1: the spec's IO scenario against the code -/

/-- Claim C1 is false on the code: for a 1-core scheduler with the single
workload `[(1,2),(1,0)]`, after tick 1 the thread is `READY` (not `BLOCKED`),
the blocked set is empty, and after tick 2 the thread is already
`TERMINATED` — because `step` pops the completed burst and then inspects the
ioLength of the *new* front burst `(1,0)`, which is `0`. -/
theorem C1_counterexample :
    ((stepN 1 scenarioIoThread).getTh 0).state = ThreadState.READY ∧
    ((stepN 1 scenarioIoThread).getTh 0).state ≠ ThreadState.BLOCKED ∧
    (stepN 1 scenarioIoThread).blocked = [] ∧
    ((stepN 2 scenarioIoThread).getTh 0).state = ThreadState.TERMINATED := by
  decide

/-- Claim C1 (amended): for a 1-core scheduler with the single workload
`[(1,2),(1,0)]`: on tick 1 the thread runs its first burst to completion, the
burst is popped, the new front burst's ioLength is `0`, so the thread does
not block: it is set `READY` with countdown reloaded to `1`, requeued, and a
`ready` event is emitted; on tick 2 it is dispatched, runs its last burst,
and is `TERMINATED`, with `finished` emitted on tick 2. -/
theorem C1_amended_trace :
    ((stepN 1 scenarioIoThread).getTh 0).state = ThreadState.READY ∧
    ((stepN 1 scenarioIoThread).getTh 0).bursts = [(1, 0)] ∧
    ((stepN 1 scenarioIoThread).getTh 0).current_burst_remaining = 1 ∧
    (stepN 1 scenarioIoThread).ready_queue = [0] ∧
    (stepN 1 scenarioIoThread).blocked = [] ∧
    ((stepN 1 scenarioIoThread).getTh 0).timeline = [(1, ThreadState.RUNNING)] ∧
    (stepN 1 scenarioIoThread).event_queue =
      [(0, Event.added 0), (1, Event.running 0), (1, Event.ready 0), (1, Event.tick)] ∧
    ((stepN 2 scenarioIoThread).getTh 0).state = ThreadState.TERMINATED ∧
    (stepN 2 scenarioIoThread).event_queue =
      [(0, Event.added 0), (1, Event.running 0), (1, Event.ready 0), (1, Event.tick),
       (2, Event.running 0), (2, Event.terminated 0), (2, Event.tick), (2, Event.finished)] := by
  decide

/-! ## Claim C6: two-thread FIFO scenario -/

/-- Claim C6: with 1 core and threads A = `[(2,0)]`, B = `[(2,0)]` added in
that order, A is dispatched first and runs on ticks 1 and 2, terminating on
tick 2; B is dispatched on tick 3 and runs on ticks 3 and 4, terminating on
tick 4; `finished` is emitted on tick 4.  The full event log and the two
timelines are computed exactly. -/
theorem C6_fifo_trace :
    ((stepN 2 scenarioTwo).getTh 0).state = ThreadState.TERMINATED ∧
    ((stepN 4 scenarioTwo).getTh 0).timeline =
      [(1, ThreadState.RUNNING), (2, ThreadState.RUNNING)] ∧
    ((stepN 4 scenarioTwo).getTh 1).state = ThreadState.TERMINATED ∧
    ((stepN 3 scenarioTwo).getTh 1).state = ThreadState.RUNNING ∧
    ((stepN 4 scenarioTwo).getTh 1).timeline =
      [(3, ThreadState.RUNNING), (4, ThreadState.RUNNING)] ∧
    (stepN 4 scenarioTwo).event_queue =
      [(0, Event.added 0), (0, Event.added 1),
       (1, Event.running 0), (1, Event.tick),
       (2, Event.terminated 0), (2, Event.tick),
       (3, Event.running 1), (3, Event.tick),
       (4, Event.terminated 1), (4, Event.tick), (4, Event.finished)] := by
  decide

/-! ## Claim C3 counterexample: stale `running` entries -/

/-- Claim C3 is false on the code: after the step in which the single thread
of `scenarioOne` terminates, the thread's state is `TERMINATED`, yet the
reference is still a member of the `running` list (the source removes it only
in the *next* step's defensive filter), so a Terminated thread is not "in
none of the three collections". -/
theorem C3_counterexample :
    ((stepN 1 scenarioOne).getTh 0).state = ThreadState.TERMINATED ∧
    0 ∈ (stepN 1 scenarioOne).running := by
  decide

/-! ## Claim C4 counterexample: no cpu_cores validation -/

/-- Claim C4 is false on the code: `Scheduler.__init__` performs no
validation, so `cpu_cores = 0` is accepted at construction, stored, and
carried into the run — after three steps the clock has advanced to 3 while
the sole thread is still starving in `READY` and nothing was ever
dispatched. -/
theorem C4_counterexample :
    (Scheduler.init "Many-to-Many" 0 1).cpu_cores = 0 ∧
    (stepN 3 scenarioZero).cpu_cores = 0 ∧
    (stepN 3 scenarioZero).time = 3 ∧
    (stepN 3 scenarioZero).running = [] ∧
    ((stepN 3 scenarioZero).getTh 0).state = ThreadState.READY := by
  decide

end Sim

namespace Sim

/-! ## Characterization of phase 1 (IO unblocking) -/

theorem unb_cons_pos {p : Nat × Int} (h : p.2 - 1 ≤ 0) (l : List (Nat × Int)) :
    unb (p :: l) = p.1 :: unb l := by
  have h' : p.2 ≤ 1 := by omega
  simp [unb, List.filter_cons, h']

theorem unb_cons_neg {p : Nat × Int} (h : ¬ p.2 - 1 ≤ 0) (l : List (Nat × Int)) :
    unb (p :: l) = unb l := by
  have h' : ¬ p.2 ≤ 1 := by omega
  simp [unb, List.filter_cons, h']

theorem keep_cons_pos {p : Nat × Int} (h : p.2 - 1 ≤ 0) (l : List (Nat × Int)) :
    keep (p :: l) = keep l := by
  have h' : ¬ 1 < p.2 := by omega
  simp [keep, List.filter_cons, h']

theorem keep_cons_neg {p : Nat × Int} (h : ¬ p.2 - 1 ≤ 0) (l : List (Nat × Int)) :
    keep (p :: l) = (p.1, p.2 - 1) :: keep l := by
  have h' : 1 < p.2 := by omega
  simp [keep, List.filter_cons, h']

theorem ioFold_acc (l : List (Nat × Int)) (σ : Scheduler) (nr : List Nat)
    (sb : List (Nat × Int)) :
    (l.foldl Scheduler.ioStep (σ, nr, sb)).2 = (nr ++ unb l, sb ++ keep l) := by
  induction l generalizing σ nr sb with
  | nil => simp [unb, keep]
  | cons p l ih =>
    by_cases h : p.2 - 1 ≤ 0
    · have hstep : Scheduler.ioStep (σ, nr, sb) p =
          ((σ.setTh p.1 (σ.getTh p.1).to_ready).emit (Event.unblocked p.1), nr ++ [p.1], sb) := by
        simp [Scheduler.ioStep, h]
      rw [List.foldl_cons, hstep, ih, unb_cons_pos h, keep_cons_pos h]
      simp
    · have hstep : Scheduler.ioStep (σ, nr, sb) p = (σ, nr, sb ++ [(p.1, p.2 - 1)]) := by
        simp [Scheduler.ioStep, h]
      rw [List.foldl_cons, hstep, ih, unb_cons_neg h, keep_cons_neg h]
      simp

theorem ioFold_sched (l : List (Nat × Int)) (σ : Scheduler) (nr : List Nat)
    (sb : List (Nat × Int)) :
    (l.foldl Scheduler.ioStep (σ, nr, sb)).1 = { σ with
      store := fun j => if j ∈ unb l then (σ.store j).to_ready else σ.store j,
      event_queue := σ.event_queue ++ (unb l).map fun i => (σ.time, Event.unblocked i) } := by
  induction l generalizing σ nr sb with
  | nil => simp [unb]
  | cons p l ih =>
    by_cases h : p.2 - 1 ≤ 0
    · have hstep : Scheduler.ioStep (σ, nr, sb) p =
          ((σ.setTh p.1 (σ.getTh p.1).to_ready).emit (Event.unblocked p.1), nr ++ [p.1], sb) := by
        simp [Scheduler.ioStep, h]
      rw [List.foldl_cons, hstep, ih, unb_cons_pos h]
      congr 1
      · simp [Scheduler.emit, Scheduler.setTh, Scheduler.getTh]
      · funext j
        by_cases hj : j = p.1
        · subst hj
          by_cases hm : p.1 ∈ unb l <;>
            simp [hm, Scheduler.emit, Scheduler.setTh, Scheduler.getTh,
              Function.update_same, SimThread.to_ready]
        · simp [Scheduler.emit, Scheduler.setTh, Scheduler.getTh,
            Function.update_noteq hj, hj]
    · have hstep : Scheduler.ioStep (σ, nr, sb) p = (σ, nr, sb ++ [(p.1, p.2 - 1)]) := by
        simp [Scheduler.ioStep, h]
      rw [List.foldl_cons, hstep, ih, unb_cons_neg h]

theorem ioPhase_char (σ : Scheduler) :
    σ.ioPhase = { σ with
      ready_queue := σ.ready_queue ++ unb σ.blocked,
      blocked := keep σ.blocked,
      store := fun j => if j ∈ unb σ.blocked then (σ.store j).to_ready else σ.store j,
      event_queue := σ.event_queue ++
        (unb σ.blocked).map fun i => (σ.time, Event.unblocked i) } := by
  unfold Scheduler.ioPhase
  dsimp only
  rw [ioFold_acc, ioFold_sched]
  simp

/-! ## Characterization of phase 2 (dispatch) -/

theorem dispatchLoop_char (n : Nat) (σ : Scheduler) :
    Scheduler.dispatchLoop n σ = { σ with
      ready_queue := σ.ready_queue.drop n,
      running := σ.running ++ σ.ready_queue.take n,
      store := fun j => if j ∈ σ.ready_queue.take n then (σ.store j).to_running else σ.store j,
      event_queue := σ.event_queue ++
        (σ.ready_queue.take n).map fun i => (σ.time, Event.running i) } := by
  induction n generalizing σ with
  | zero => simp [Scheduler.dispatchLoop]
  | succ n ih =>
    cases hq : σ.ready_queue with
    | nil =>
      rw [Scheduler.dispatchLoop, hq, ih, hq]
      simp
    | cons i rest =>
      rw [Scheduler.dispatchLoop, hq]
      dsimp only
      rw [ih]
      dsimp only [Scheduler.setTh, Scheduler.getTh, Scheduler.emit]
      congr 1
      · simp
      · simp
      · funext j
        by_cases hj : j = i
        · subst hj
          by_cases hm : j ∈ List.take n rest <;>
            simp [hm, Function.update_same, SimThread.to_running]
        · simp [Function.update_noteq hj, hj]

end Sim

namespace Sim

/-! ## Execution phase: branch characterization of `execOne` -/

theorem chain_append_lt {l : List Nat} {a : Nat} (hc : l.Chain' (· < ·))
    (ha : ∀ x ∈ l, x < a) : (l ++ [a]).Chain' (· < ·) := by
  rw [List.chain'_append]
  refine ⟨hc, List.chain'_singleton a, ?_⟩
  intro x hx y hy
  rw [List.head?_cons, Option.mem_def, Option.some_inj] at hy
  subst hy
  obtain ⟨h, rfl⟩ := List.mem_getLast?_eq_getLast hx
  exact ha _ (List.getLast_mem h)

theorem execOne_noend (σ : Scheduler) (i : Nat)
    (h : ¬ (σ.getTh i).current_burst_remaining - 1 ≤ 0) :
    σ.execOne i = σ.setTh i
      { σ.getTh i with
        current_burst_remaining := (σ.getTh i).current_burst_remaining - 1,
        timeline := (σ.getTh i).timeline ++ [(σ.time, (σ.getTh i).state)] } := by
  unfold Scheduler.execOne
  dsimp only
  rw [if_neg h]

theorem execOne_term (σ : Scheduler) (i : Nat)
    (h1 : (σ.getTh i).current_burst_remaining - 1 ≤ 0)
    (h2 : ¬ 1 < (σ.getTh i).bursts.length) :
    σ.execOne i = (σ.setTh i
      { σ.getTh i with
        state := ThreadState.TERMINATED,
        current_burst_remaining := (σ.getTh i).current_burst_remaining - 1,
        timeline := (σ.getTh i).timeline ++ [(σ.time, (σ.getTh i).state)] }).emit
      (Event.terminated i) := by
  unfold Scheduler.execOne
  dsimp only
  rw [if_pos h1, if_neg h2]
  simp [Scheduler.setTh, Scheduler.emit, Function.update_idem, SimThread.terminate]

theorem execOne_block (σ : Scheduler) (i : Nat)
    (h1 : (σ.getTh i).current_burst_remaining - 1 ≤ 0)
    (h2 : 1 < (σ.getTh i).bursts.length)
    (h3 : 0 < ((σ.getTh i).bursts.tail.headD (0, 0)).2) :
    σ.execOne i = ({ σ.setTh i
      { σ.getTh i with
        state := ThreadState.BLOCKED,
        bursts := (σ.getTh i).bursts.tail,
        current_burst_remaining := (σ.getTh i).current_burst_remaining - 1,
        timeline := (σ.getTh i).timeline ++ [(σ.time, (σ.getTh i).state)] } with
      blocked := σ.blocked ++ [(i, ((σ.getTh i).bursts.tail.headD (0, 0)).2)] }).emit
      (Event.blocked i) := by
  unfold Scheduler.execOne
  dsimp only
  rw [if_pos h1, if_pos h2, if_pos h3]
  simp [Scheduler.setTh, Scheduler.emit, Function.update_idem, SimThread.to_blocked]

theorem execOne_ready (σ : Scheduler) (i : Nat)
    (h1 : (σ.getTh i).current_burst_remaining - 1 ≤ 0)
    (h2 : 1 < (σ.getTh i).bursts.length)
    (h3 : ¬ 0 < ((σ.getTh i).bursts.tail.headD (0, 0)).2) :
    σ.execOne i = ({ σ.setTh i
      { σ.getTh i with
        state := ThreadState.READY,
        bursts := (σ.getTh i).bursts.tail,
        current_burst_remaining := ((σ.getTh i).bursts.tail.headD (0, 0)).1,
        timeline := (σ.getTh i).timeline ++ [(σ.time, (σ.getTh i).state)] } with
      ready_queue := σ.ready_queue ++ [i] }).emit (Event.ready i) := by
  unfold Scheduler.execOne
  dsimp only
  rw [if_pos h1, if_pos h2, if_neg h3]
  simp [Scheduler.setTh, Scheduler.emit, Function.update_idem, SimThread.to_ready]

theorem execOne_fixed (σ : Scheduler) (i : Nat) :
    (σ.execOne i).running = σ.running ∧ (σ.execOne i).all_threads = σ.all_threads ∧
    (σ.execOne i).time = σ.time ∧ (σ.execOne i).next_id = σ.next_id ∧
    (σ.execOne i).cpu_cores = σ.cpu_cores ∧ (σ.execOne i).running_flag = σ.running_flag := by
  by_cases h1 : (σ.getTh i).current_burst_remaining - 1 ≤ 0
  · by_cases h2 : 1 < (σ.getTh i).bursts.length
    · by_cases h3 : 0 < ((σ.getTh i).bursts.tail.headD (0, 0)).2
      · rw [execOne_block σ i h1 h2 h3]; exact ⟨rfl, rfl, rfl, rfl, rfl, rfl⟩
      · rw [execOne_ready σ i h1 h2 h3]; exact ⟨rfl, rfl, rfl, rfl, rfl, rfl⟩
    · rw [execOne_term σ i h1 h2]; exact ⟨rfl, rfl, rfl, rfl, rfl, rfl⟩
  · rw [execOne_noend σ i h1]; exact ⟨rfl, rfl, rfl, rfl, rfl, rfl⟩

theorem execOne_getTh_ne (σ : Scheduler) {i j : Nat} (h : j ≠ i) :
    (σ.execOne i).getTh j = σ.getTh j := by
  by_cases h1 : (σ.getTh i).current_burst_remaining - 1 ≤ 0
  · by_cases h2 : 1 < (σ.getTh i).bursts.length
    · by_cases h3 : 0 < ((σ.getTh i).bursts.tail.headD (0, 0)).2
      · rw [execOne_block σ i h1 h2 h3]
        simp [Scheduler.getTh, Scheduler.setTh, Scheduler.emit, Function.update_noteq h]
      · rw [execOne_ready σ i h1 h2 h3]
        simp [Scheduler.getTh, Scheduler.setTh, Scheduler.emit, Function.update_noteq h]
    · rw [execOne_term σ i h1 h2]
      simp [Scheduler.getTh, Scheduler.setTh, Scheduler.emit, Function.update_noteq h]
  · rw [execOne_noend σ i h1]
    simp [Scheduler.getTh, Scheduler.setTh, Scheduler.emit, Function.update_noteq h]

theorem Inv_emit {σ : Scheduler} (e : Event) (h : Inv σ) : Inv (σ.emit e) :=
  ⟨h.reg_lt, h.reg_nodup, h.rq_reg, h.bl_reg, h.run_reg, h.rq_nodup, h.bl_nodup,
   h.run_nodup, h.ready_iff, h.blocked_iff, h.running_mem, h.not_new, h.bursts_ne,
   h.tl_run, h.tl_le, h.tl_chain, h.run_le⟩

theorem Inv_flag {σ : Scheduler} (b : Bool) (h : Inv σ) : Inv { σ with running_flag := b } :=
  ⟨h.reg_lt, h.reg_nodup, h.rq_reg, h.bl_reg, h.run_reg, h.rq_nodup, h.bl_nodup,
   h.run_nodup, h.ready_iff, h.blocked_iff, h.running_mem, h.not_new, h.bursts_ne,
   h.tl_run, h.tl_le, h.tl_chain, h.run_le⟩

theorem Inv_timeBump {σ : Scheduler} (h : Inv σ) :
    Inv { σ with time := σ.time + 1 } ∧ TlLt { σ with time := σ.time + 1 } :=
  ⟨⟨h.reg_lt, h.reg_nodup, h.rq_reg, h.bl_reg, h.run_reg, h.rq_nodup, h.bl_nodup,
    h.run_nodup, h.ready_iff, h.blocked_iff, h.running_mem, h.not_new, h.bursts_ne,
    h.tl_run, fun i hi e he => Nat.le_trans (h.tl_le i hi e he) (Nat.le_succ _),
    h.tl_chain, h.run_le⟩,
   fun i hi e he => Nat.lt_succ_of_le (h.tl_le i hi e he)⟩

end Sim

namespace Sim

/-- Core preservation lemma: updating one thread `i` that was `RUNNING`,
appending its timeline sample, and placing it into the collection matching
its new state preserves the scheduler invariant. -/
theorem Inv_update (σ : Scheduler) (i : Nat) (T : SimThread)
    (q' : List Nat) (B' : List (Nat × Int))
    (hInv : Inv σ)
    (hireg : i ∈ σ.all_threads)
    (hiRUN : (σ.getTh i).state = ThreadState.RUNNING)
    (hitl : ∀ e ∈ (σ.getTh i).timeline, e.1 < σ.time)
    (hT_tl : T.timeline = (σ.getTh i).timeline ++ [(σ.time, ThreadState.RUNNING)])
    (hT_ne : T.bursts ≠ [])
    (hq : (T.state = ThreadState.READY ∧ q' = σ.ready_queue ++ [i]) ∨
          (T.state ≠ ThreadState.READY ∧ q' = σ.ready_queue))
    (hB : (T.state = ThreadState.BLOCKED ∧ ∃ io, 0 < io ∧ B' = σ.blocked ++ [(i, io)]) ∨
          (T.state ≠ ThreadState.BLOCKED ∧ B' = σ.blocked))
    (hrunmem : T.state = ThreadState.RUNNING → i ∈ σ.running)
    (hnotnew : T.state ≠ ThreadState.NEW) :
    Inv { σ with ready_queue := q', blocked := B',
                 store := Function.update σ.store i T } := by
  have hiq : i ∉ σ.ready_queue := by
    intro hmem
    have h := (hInv.ready_iff i hireg).mpr hmem
    rw [hiRUN] at h
    exact ThreadState.noConfusion h
  have hib : i ∉ σ.blocked.map Prod.fst := by
    intro hmem
    have h := (hInv.blocked_iff i hireg).mpr hmem
    rw [hiRUN] at h
    exact ThreadState.noConfusion h
  have hgeti : Function.update σ.store i T i = T := Function.update_same i T σ.store
  have hgetj : ∀ j, j ≠ i → Function.update σ.store i T j = σ.getTh j := by
    intro j hj
    exact Function.update_noteq hj T σ.store
  constructor
  case reg_lt => exact hInv.reg_lt
  case reg_nodup => exact hInv.reg_nodup
  case rq_reg =>
    rcases hq with ⟨_, rfl⟩ | ⟨_, rfl⟩
    · intro j hj
      rcases List.mem_append.mp hj with hj | hj
      · exact hInv.rq_reg j hj
      · simp only [List.mem_singleton] at hj; subst hj; exact hireg
    · exact hInv.rq_reg
  case bl_reg =>
    rcases hB with ⟨_, io, _, rfl⟩ | ⟨_, rfl⟩
    · intro p hp
      rcases List.mem_append.mp hp with hp | hp
      · exact hInv.bl_reg p hp
      · simp only [List.mem_singleton] at hp; subst hp; exact hireg
    · exact hInv.bl_reg
  case run_reg => exact hInv.run_reg
  case rq_nodup =>
    rcases hq with ⟨_, rfl⟩ | ⟨_, rfl⟩
    · exact List.nodup_append.mpr ⟨hInv.rq_nodup, List.nodup_singleton i,
        fun a ha hb => by
          simp only [List.mem_singleton] at hb; subst hb; exact hiq ha⟩
    · exact hInv.rq_nodup
  case bl_nodup =>
    rcases hB with ⟨_, io, _, rfl⟩ | ⟨_, rfl⟩
    · rw [List.map_append]
      exact List.nodup_append.mpr ⟨hInv.bl_nodup, List.nodup_singleton i,
        fun a ha hb => by
          simp only [List.map_cons, List.map_nil, List.mem_singleton] at hb
          subst hb; exact hib ha⟩
    · exact hInv.bl_nodup
  case run_nodup => exact hInv.run_nodup
  case ready_iff =>
    intro j hj
    dsimp only [Scheduler.getTh]
    by_cases hji : j = i
    · subst hji
      rw [hgeti]
      rcases hq with ⟨hs, rfl⟩ | ⟨hs, rfl⟩
      · simp [hs]
      · simp [hs, hiq]
    · rw [hgetj j hji]
      rcases hq with ⟨_, rfl⟩ | ⟨_, rfl⟩
      · rw [hInv.ready_iff j hj]
        constructor
        · intro hmem; exact List.mem_append.mpr (Or.inl hmem)
        · intro hmem
          rcases List.mem_append.mp hmem with hmem | hmem
          · exact hmem
          · simp only [List.mem_singleton] at hmem; exact absurd hmem hji
      · exact hInv.ready_iff j hj
  case blocked_iff =>
    intro j hj
    dsimp only [Scheduler.getTh]
    by_cases hji : j = i
    · subst hji
      rw [hgeti]
      rcases hB with ⟨hs, io, _, rfl⟩ | ⟨hs, rfl⟩
      · simp [hs]
      · simp [hs, hib]
    · rw [hgetj j hji]
      rcases hB with ⟨_, io, _, rfl⟩ | ⟨_, rfl⟩
      · rw [hInv.blocked_iff j hj, List.map_append]
        constructor
        · intro hmem; exact List.mem_append.mpr (Or.inl hmem)
        · intro hmem
          rcases List.mem_append.mp hmem with hmem | hmem
          · exact hmem
          · simp only [List.map_cons, List.map_nil, List.mem_singleton] at hmem
            exact absurd hmem hji
      · exact hInv.blocked_iff j hj
  case running_mem =>
    intro j hj hs
    dsimp only [Scheduler.getTh] at hs ⊢
    by_cases hji : j = i
    · subst hji
      rw [hgeti] at hs
      exact hrunmem hs
    · rw [hgetj j hji] at hs
      exact hInv.running_mem j hj hs
  case not_new =>
    intro j hj
    dsimp only [Scheduler.getTh]
    by_cases hji : j = i
    · subst hji; rw [hgeti]; exact hnotnew
    · rw [hgetj j hji]; exact hInv.not_new j hj
  case bursts_ne =>
    intro j hj
    dsimp only [Scheduler.getTh]
    by_cases hji : j = i
    · subst hji; rw [hgeti]; exact hT_ne
    · rw [hgetj j hji]; exact hInv.bursts_ne j hj
  case tl_run =>
    intro j hj e he
    dsimp only [Scheduler.getTh] at he
    by_cases hji : j = i
    · subst hji
      rw [hgeti, hT_tl] at he
      rcases List.mem_append.mp he with he | he
      · exact hInv.tl_run j hj e he
      · simp only [List.mem_singleton] at he; rw [he]
    · rw [hgetj j hji] at he
      exact hInv.tl_run j hj e he
  case tl_le =>
    intro j hj e he
    dsimp only [Scheduler.getTh] at he ⊢
    by_cases hji : j = i
    · subst hji
      rw [hgeti, hT_tl] at he
      rcases List.mem_append.mp he with he | he
      · exact hInv.tl_le j hj e he
      · simp only [List.mem_singleton] at he; rw [he]
    · rw [hgetj j hji] at he
      exact hInv.tl_le j hj e he
  case tl_chain =>
    intro j hj
    dsimp only [Scheduler.getTh]
    by_cases hji : j = i
    · subst hji
      rw [hgeti, hT_tl, List.map_append]
      exact chain_append_lt (hInv.tl_chain j hj)
        (fun x hx => by
          rcases List.mem_map.mp hx with ⟨e, he, rfl⟩
          exact hitl e he)
    · rw [hgetj j hji]; exact hInv.tl_chain j hj
  case run_le => exact hInv.run_le

end Sim

namespace Sim

/-- `execOne` preserves the invariant for a thread that is genuinely
running. -/
theorem execOne_inv (σ : Scheduler) (i : Nat) (hInv : Inv σ)
    (hi : (σ.getTh i).state = ThreadState.RUNNING)
    (hireg : i ∈ σ.all_threads)
    (himem : i ∈ σ.running)
    (hitl : ∀ e ∈ (σ.getTh i).timeline, e.1 < σ.time) :
    Inv (σ.execOne i) := by
  by_cases h1 : (σ.getTh i).current_burst_remaining - 1 ≤ 0
  · by_cases h2 : 1 < (σ.getTh i).bursts.length
    · have htail : (σ.getTh i).bursts.tail ≠ [] := by
        intro hnil
        have hlt := List.length_tail (σ.getTh i).bursts
        rw [hnil] at hlt
        simp at hlt
        omega
      by_cases h3 : 0 < ((σ.getTh i).bursts.tail.headD (0, 0)).2
      · rw [execOne_block σ i h1 h2 h3]
        refine Inv_emit _ (Inv_update σ i _ _ _ hInv hireg hi hitl ?_ ?_ ?_ ?_ ?_ ?_)
        · dsimp only; rw [hi]
        · exact htail
        · exact Or.inr ⟨fun h => ThreadState.noConfusion h, rfl⟩
        · exact Or.inl ⟨rfl, _, h3, rfl⟩
        · exact fun h => ThreadState.noConfusion h
        · exact fun h => ThreadState.noConfusion h
      · rw [execOne_ready σ i h1 h2 h3]
        refine Inv_emit _ (Inv_update σ i _ _ _ hInv hireg hi hitl ?_ ?_ ?_ ?_ ?_ ?_)
        · dsimp only; rw [hi]
        · exact htail
        · exact Or.inl ⟨rfl, rfl⟩
        · exact Or.inr ⟨fun h => ThreadState.noConfusion h, rfl⟩
        · exact fun h => ThreadState.noConfusion h
        · exact fun h => ThreadState.noConfusion h
    · rw [execOne_term σ i h1 h2]
      refine Inv_emit _ (Inv_update σ i _ _ _ hInv hireg hi hitl ?_ ?_ ?_ ?_ ?_ ?_)
      · dsimp only; rw [hi]
      · exact hInv.bursts_ne i hireg
      · exact Or.inr ⟨fun h => ThreadState.noConfusion h, rfl⟩
      · exact Or.inr ⟨fun h => ThreadState.noConfusion h, rfl⟩
      · exact fun h => ThreadState.noConfusion h
      · exact fun h => ThreadState.noConfusion h
  · rw [execOne_noend σ i h1]
    refine Inv_update σ i _ _ _ hInv hireg hi hitl ?_ ?_ ?_ ?_ ?_ ?_
    · dsimp only; rw [hi]
    · exact hInv.bursts_ne i hireg
    · refine Or.inr ⟨fun h => ?_, rfl⟩
      dsimp only at h
      rw [hi] at h
      exact ThreadState.noConfusion h
    · refine Or.inr ⟨fun h => ?_, rfl⟩
      dsimp only at h
      rw [hi] at h
      exact ThreadState.noConfusion h
    · exact fun _ => himem
    · intro h
      dsimp only at h
      rw [hi] at h
      exact ThreadState.noConfusion h

/-- The execution fold of phase 3 preserves the invariant when applied to a
duplicate-free list of registered, genuinely running threads whose timelines
are strictly older than the (already bumped) clock. -/
theorem execFold_inv (l : List Nat) (σ : Scheduler) (hInv : Inv σ)
    (hrun : ∀ j ∈ l, (σ.getTh j).state = ThreadState.RUNNING)
    (hnd : l.Nodup)
    (hreg : ∀ j ∈ l, j ∈ σ.all_threads)
    (hmem : ∀ j ∈ l, j ∈ σ.running)
    (htl : ∀ j ∈ l, ∀ e ∈ (σ.getTh j).timeline, e.1 < σ.time) :
    Inv (l.foldl Scheduler.execOne σ) := by
  induction l generalizing σ with
  | nil => exact hInv
  | cons i l ih =>
    rw [List.foldl_cons]
    have hmi := List.mem_cons_self i l
    have hni : i ∉ l := (List.nodup_cons.mp hnd).1
    have hInv' := execOne_inv σ i hInv (hrun i hmi) (hreg i hmi) (hmem i hmi) (htl i hmi)
    obtain ⟨hrunf, hallf, htimef, _, _, _⟩ := execOne_fixed σ i
    apply ih (σ.execOne i) hInv'
    · intro j hj
      have hji : j ≠ i := fun h => hni (h ▸ hj)
      rw [execOne_getTh_ne σ hji]
      exact hrun j (List.mem_cons_of_mem i hj)
    · exact (List.nodup_cons.mp hnd).2
    · intro j hj
      rw [hallf]
      exact hreg j (List.mem_cons_of_mem i hj)
    · intro j hj
      rw [hrunf]
      exact hmem j (List.mem_cons_of_mem i hj)
    · intro j hj e he
      have hji : j ≠ i := fun h => hni (h ▸ hj)
      rw [execOne_getTh_ne σ hji] at he
      rw [htimef]
      exact htl j (List.mem_cons_of_mem i hj) e he

end Sim

namespace Sim

/-! ## Invariant preservation through phase 1 -/

theorem mem_map_fst_of_mem_unb {l : List (Nat × Int)} {j : Nat} (h : j ∈ unb l) :
    j ∈ l.map Prod.fst := by
  rcases List.mem_map.mp h with ⟨p, hp, rfl⟩
  exact List.mem_map_of_mem _ (List.mem_of_mem_filter hp)

theorem keep_map_fst (l : List (Nat × Int)) :
    (keep l).map Prod.fst = (l.filter fun p => !decide (p.2 - 1 ≤ 0)).map Prod.fst := by
  simp [keep, List.map_map]

theorem mem_map_fst_of_mem_keep {l : List (Nat × Int)} {j : Nat}
    (h : j ∈ (keep l).map Prod.fst) : j ∈ l.map Prod.fst := by
  rw [keep_map_fst] at h
  rcases List.mem_map.mp h with ⟨p, hp, rfl⟩
  exact List.mem_map_of_mem _ (List.mem_of_mem_filter hp)

theorem unb_nodup {l : List (Nat × Int)} (h : (l.map Prod.fst).Nodup) : (unb l).Nodup :=
  h.sublist ((List.filter_sublist l).map Prod.fst)

theorem keep_ids_nodup {l : List (Nat × Int)} (h : (l.map Prod.fst).Nodup) :
    ((keep l).map Prod.fst).Nodup := by
  rw [keep_map_fst]
  exact h.sublist ((List.filter_sublist l).map Prod.fst)

theorem not_mem_keep_of_mem_unb {l : List (Nat × Int)}
    (hnd : (l.map Prod.fst).Nodup) {j : Nat} (hu : j ∈ unb l) :
    j ∉ (keep l).map Prod.fst := by
  intro hk
  rw [keep_map_fst] at hk
  rcases List.mem_map.mp hu with ⟨p, hp, hp1⟩
  rcases List.mem_map.mp hk with ⟨p', hp', hp'1⟩
  have hpl := List.mem_of_mem_filter hp
  have hp'l := List.mem_of_mem_filter hp'
  have heq : p = p' := List.inj_on_of_nodup_map hnd hpl hp'l (hp1.trans hp'1.symm)
  have hq := List.of_mem_filter hp
  have hq' := List.of_mem_filter hp'
  rw [← heq] at hq'
  simp at hq hq'
  omega

theorem mem_keep_of_mem_not_unb {l : List (Nat × Int)} {j : Nat}
    (hj : j ∈ l.map Prod.fst) (hn : j ∉ unb l) : j ∈ (keep l).map Prod.fst := by
  rcases List.mem_map.mp hj with ⟨p, hp, rfl⟩
  by_cases hq : p.2 - 1 ≤ 0
  · exact absurd (List.mem_map_of_mem _ (List.mem_filter_of_mem hp (by simpa using hq))) hn
  · rw [keep_map_fst]
    exact List.mem_map_of_mem _ (List.mem_filter_of_mem hp (by simpa using hq))

theorem Inv_ioPhase {σ : Scheduler} (hInv : Inv σ) (htl : TlLt σ) :
    Inv σ.ioPhase ∧ TlLt σ.ioPhase := by
  rw [ioPhase_char]
  have hbl_ids : ∀ j ∈ σ.blocked.map Prod.fst, j ∈ σ.all_threads := by
    intro j hj
    rcases List.mem_map.mp hj with ⟨p, hp, rfl⟩
    exact hInv.bl_reg p hp
  have hu_reg : ∀ j ∈ unb σ.blocked, j ∈ σ.all_threads :=
    fun j hj => hbl_ids j (mem_map_fst_of_mem_unb hj)
  have hu_blocked : ∀ j ∈ unb σ.blocked, (σ.getTh j).state = ThreadState.BLOCKED :=
    fun j hj => (hInv.blocked_iff j (hu_reg j hj)).mpr (mem_map_fst_of_mem_unb hj)
  have hq_ready : ∀ j ∈ σ.ready_queue, (σ.getTh j).state = ThreadState.READY :=
    fun j hj => (hInv.ready_iff j (hInv.rq_reg j hj)).mpr hj
  have hq_not_unb : ∀ j ∈ σ.ready_queue, j ∉ unb σ.blocked := by
    intro j hj hu
    have h1 := hq_ready j hj
    have h2 := hu_blocked j hu
    rw [h1] at h2
    exact ThreadState.noConfusion h2
  constructor
  · constructor
    case reg_lt => exact hInv.reg_lt
    case reg_nodup => exact hInv.reg_nodup
    case rq_reg =>
      intro j hj
      rcases List.mem_append.mp hj with hj | hj
      · exact hInv.rq_reg j hj
      · exact hu_reg j hj
    case bl_reg =>
      intro p hp
      exact hbl_ids p.1 (mem_map_fst_of_mem_keep (List.mem_map_of_mem _ hp))
    case run_reg => exact hInv.run_reg
    case rq_nodup =>
      exact List.nodup_append.mpr ⟨hInv.rq_nodup, unb_nodup hInv.bl_nodup, hq_not_unb⟩
    case bl_nodup => exact keep_ids_nodup hInv.bl_nodup
    case run_nodup => exact hInv.run_nodup
    case ready_iff =>
      intro j hj
      dsimp only [Scheduler.getTh]
      by_cases hju : j ∈ unb σ.blocked
      · rw [if_pos hju]
        simp only [SimThread.to_ready]
        constructor
        · intro _
          exact List.mem_append.mpr (Or.inr hju)
        · intro _
          trivial
      · rw [if_neg hju]
        rw [show (σ.store j) = σ.getTh j from rfl, hInv.ready_iff j hj]
        constructor
        · intro hm
          exact List.mem_append.mpr (Or.inl hm)
        · intro hm
          rcases List.mem_append.mp hm with hm | hm
          · exact hm
          · exact absurd hm hju
    case blocked_iff =>
      intro j hj
      dsimp only [Scheduler.getTh]
      by_cases hju : j ∈ unb σ.blocked
      · rw [if_pos hju]
        simp only [SimThread.to_ready]
        constructor
        · intro h
          exact ThreadState.noConfusion h
        · intro h
          exact absurd h (not_mem_keep_of_mem_unb hInv.bl_nodup hju)
      · rw [if_neg hju]
        rw [show (σ.store j) = σ.getTh j from rfl, hInv.blocked_iff j hj]
        constructor
        · intro hm
          exact mem_keep_of_mem_not_unb hm hju
        · intro hm
          exact mem_map_fst_of_mem_keep hm
    case running_mem =>
      intro j hj hs
      dsimp only [Scheduler.getTh] at hs
      by_cases hju : j ∈ unb σ.blocked
      · rw [if_pos hju] at hs
        simp only [SimThread.to_ready] at hs
        exact ThreadState.noConfusion hs
      · rw [if_neg hju] at hs
        exact hInv.running_mem j hj hs
    case not_new =>
      intro j hj
      dsimp only [Scheduler.getTh]
      by_cases hju : j ∈ unb σ.blocked
      · rw [if_pos hju]
        simp only [SimThread.to_ready]
        intro h
        exact ThreadState.noConfusion h
      · rw [if_neg hju]
        exact hInv.not_new j hj
    case bursts_ne =>
      intro j hj
      dsimp only [Scheduler.getTh]
      by_cases hju : j ∈ unb σ.blocked
      · rw [if_pos hju]
        exact hInv.bursts_ne j hj
      · rw [if_neg hju]
        exact hInv.bursts_ne j hj
    case tl_run =>
      intro j hj e he
      dsimp only [Scheduler.getTh] at he
      by_cases hju : j ∈ unb σ.blocked
      · rw [if_pos hju] at he
        exact hInv.tl_run j hj e he
      · rw [if_neg hju] at he
        exact hInv.tl_run j hj e he
    case tl_le =>
      intro j hj e he
      dsimp only [Scheduler.getTh] at he
      by_cases hju : j ∈ unb σ.blocked
      · rw [if_pos hju] at he
        exact hInv.tl_le j hj e he
      · rw [if_neg hju] at he
        exact hInv.tl_le j hj e he
    case tl_chain =>
      intro j hj
      dsimp only [Scheduler.getTh]
      by_cases hju : j ∈ unb σ.blocked
      · rw [if_pos hju]
        exact hInv.tl_chain j hj
      · rw [if_neg hju]
        exact hInv.tl_chain j hj
    case run_le => exact hInv.run_le
  · intro j hj e he
    dsimp only [Scheduler.getTh] at he
    by_cases hju : j ∈ unb σ.blocked
    · rw [if_pos hju] at he
      exact htl j hj e he
    · rw [if_neg hju] at he
      exact htl j hj e he

end Sim

namespace Sim

/-! ## Invariant preservation through phase 2 -/

theorem dispatchPhase_char (σ : Scheduler) :
    σ.dispatchPhase = { σ with
      running :=
        (σ.running.filter fun i => decide ((σ.getTh i).state = ThreadState.RUNNING)) ++
          σ.ready_queue.take
            (σ.cpu_cores -
              (((σ.running.filter fun i =>
                  decide ((σ.getTh i).state = ThreadState.RUNNING)).length : Int))).toNat,
      ready_queue := σ.ready_queue.drop
        (σ.cpu_cores -
          (((σ.running.filter fun i =>
              decide ((σ.getTh i).state = ThreadState.RUNNING)).length : Int))).toNat,
      store := fun j =>
        if j ∈ σ.ready_queue.take
            (σ.cpu_cores -
              (((σ.running.filter fun i =>
                  decide ((σ.getTh i).state = ThreadState.RUNNING)).length : Int))).toNat
        then (σ.store j).to_running else σ.store j,
      event_queue := σ.event_queue ++
        (σ.ready_queue.take
            (σ.cpu_cores -
              (((σ.running.filter fun i =>
                  decide ((σ.getTh i).state = ThreadState.RUNNING)).length : Int))).toNat).map
          fun i => (σ.time, Event.running i) } := by
  unfold Scheduler.dispatchPhase
  dsimp only
  rw [dispatchLoop_char]

theorem Inv_dispatchPhase {σ : Scheduler} (hInv : Inv σ) (htl : TlLt σ) :
    Inv σ.dispatchPhase ∧ TlLt σ.dispatchPhase ∧
      (∀ i ∈ σ.dispatchPhase.running,
        (σ.dispatchPhase.getTh i).state = ThreadState.RUNNING) := by
  rw [dispatchPhase_char]
  set F := σ.running.filter fun i => decide ((σ.getTh i).state = ThreadState.RUNNING) with hF
  set k := (σ.cpu_cores - (F.length : Int)).toNat with hk
  set d := σ.ready_queue.take k with hd
  have hF_sub : ∀ j ∈ F, j ∈ σ.running := fun j hj => List.mem_of_mem_filter hj
  have hF_run : ∀ j ∈ F, (σ.getTh j).state = ThreadState.RUNNING := by
    intro j hj
    have := List.of_mem_filter hj
    exact of_decide_eq_true this
  have hF_nodup : F.Nodup := hInv.run_nodup.filter _
  have hd_sub : ∀ j ∈ d, j ∈ σ.ready_queue := fun j hj => List.take_subset k σ.ready_queue hj
  have hd_nodup : d.Nodup := hInv.rq_nodup.sublist (List.take_sublist k σ.ready_queue)
  have hdrop_nodup : (σ.ready_queue.drop k).Nodup :=
    hInv.rq_nodup.sublist (List.drop_sublist k σ.ready_queue)
  have hd_ready : ∀ j ∈ d, (σ.getTh j).state = ThreadState.READY :=
    fun j hj => (hInv.ready_iff j (hInv.rq_reg j (hd_sub j hj))).mpr (hd_sub j hj)
  have hFd_disj : ∀ j ∈ F, j ∉ d := by
    intro j hjF hjd
    have h1 := hF_run j hjF
    have h2 := hd_ready j hjd
    rw [h1] at h2
    exact ThreadState.noConfusion h2
  have htd_disj : ∀ j ∈ d, j ∉ σ.ready_queue.drop k := by
    intro j hjd hjdrop
    have hnd := hInv.rq_nodup
    rw [← List.take_append_drop k σ.ready_queue] at hnd
    exact (List.nodup_append.mp hnd).2.2 hjd hjdrop
  have hget : ∀ j, (fun j => if j ∈ d then (σ.store j).to_running else σ.store j) j
      = if j ∈ d then (σ.getTh j).to_running else σ.getTh j := fun j => rfl
  refine ⟨?_, ?_, ?_⟩
  · constructor
    case reg_lt => exact hInv.reg_lt
    case reg_nodup => exact hInv.reg_nodup
    case rq_reg =>
      intro j hj
      exact hInv.rq_reg j (List.drop_subset k σ.ready_queue hj)
    case bl_reg => exact hInv.bl_reg
    case run_reg =>
      intro j hj
      rcases List.mem_append.mp hj with hj | hj
      · exact hInv.run_reg j (hF_sub j hj)
      · exact hInv.rq_reg j (hd_sub j hj)
    case rq_nodup => exact hdrop_nodup
    case bl_nodup => exact hInv.bl_nodup
    case run_nodup =>
      exact List.nodup_append.mpr ⟨hF_nodup, hd_nodup, hFd_disj⟩
    case ready_iff =>
      intro j hj
      dsimp only [Scheduler.getTh]
      by_cases hjd : j ∈ d
      · rw [if_pos hjd]
        simp only [SimThread.to_running]
        constructor
        · intro h
          exact ThreadState.noConfusion h
        · intro h
          exact absurd h (htd_disj j hjd)
      · rw [if_neg hjd]
        rw [show (σ.store j) = σ.getTh j from rfl, hInv.ready_iff j hj]
        constructor
        · intro hm
          have : j ∈ σ.ready_queue.take k ++ σ.ready_queue.drop k := by
            rw [List.take_append_drop]
            exact hm
          rcases List.mem_append.mp this with hmm | hmm
          · exact absurd hmm hjd
          · exact hmm
        · intro hm
          exact List.drop_subset k σ.ready_queue hm
    case blocked_iff =>
      intro j hj
      dsimp only [Scheduler.getTh]
      by_cases hjd : j ∈ d
      · rw [if_pos hjd]
        simp only [SimThread.to_running]
        constructor
        · intro h
          exact ThreadState.noConfusion h
        · intro h
          have h2 := (hInv.blocked_iff j hj).mpr h
          have h3 := hd_ready j hjd
          rw [h3] at h2
          exact ThreadState.noConfusion h2
      · rw [if_neg hjd]
        exact hInv.blocked_iff j hj
    case running_mem =>
      intro j hj hs
      dsimp only [Scheduler.getTh] at hs
      by_cases hjd : j ∈ d
      · rw [if_pos hjd] at hs
        exact List.mem_append.mpr (Or.inr hjd)
      · rw [if_neg hjd] at hs
        refine List.mem_append.mpr (Or.inl ?_)
        exact List.mem_filter_of_mem (hInv.running_mem j hj hs) (decide_eq_true hs)
    case not_new =>
      intro j hj
      dsimp only [Scheduler.getTh]
      by_cases hjd : j ∈ d
      · rw [if_pos hjd]
        simp only [SimThread.to_running]
        intro h
        exact ThreadState.noConfusion h
      · rw [if_neg hjd]
        exact hInv.not_new j hj
    case bursts_ne =>
      intro j hj
      dsimp only [Scheduler.getTh]
      by_cases hjd : j ∈ d
      · rw [if_pos hjd]
        exact hInv.bursts_ne j hj
      · rw [if_neg hjd]
        exact hInv.bursts_ne j hj
    case tl_run =>
      intro j hj e he
      dsimp only [Scheduler.getTh] at he
      by_cases hjd : j ∈ d
      · rw [if_pos hjd] at he
        exact hInv.tl_run j hj e he
      · rw [if_neg hjd] at he
        exact hInv.tl_run j hj e he
    case tl_le =>
      intro j hj e he
      dsimp only [Scheduler.getTh] at he
      by_cases hjd : j ∈ d
      · rw [if_pos hjd] at he
        exact hInv.tl_le j hj e he
      · rw [if_neg hjd] at he
        exact hInv.tl_le j hj e he
    case tl_chain =>
      intro j hj
      dsimp only [Scheduler.getTh]
      by_cases hjd : j ∈ d
      · rw [if_pos hjd]
        exact hInv.tl_chain j hj
      · rw [if_neg hjd]
        exact hInv.tl_chain j hj
    case run_le =>
      have hdk : d.length ≤ k := by
        rw [hd]
        rw [List.length_take]
        exact Nat.min_le_left k _
      have hFlen : F.length ≤ σ.running.length := List.length_filter_le _ _
      rcases hInv.run_le with hle | hnil
      · left
        rw [List.length_append]
        push_cast
        have : (F.length : Int) ≤ σ.cpu_cores := by
          calc (F.length : Int) ≤ (σ.running.length : Int) := by exact_mod_cast hFlen
            _ ≤ σ.cpu_cores := hle
        omega
      · by_cases hc : 0 < σ.cpu_cores
        · left
          rw [List.length_append]
          have hF0 : F.length = 0 := by
            rw [hF, hnil]
            rfl
          push_cast
          rw [hF0]
          omega
        · right
          have hF0 : F = [] := by
            rw [hF, hnil]
            rfl
          have hk0 : k = 0 := by
            rw [hk, hF0]
            simp
            omega
          rw [hF0, hk0, hd, hk0]
          simp
  · intro j hj e he
    dsimp only [Scheduler.getTh] at he
    by_cases hjd : j ∈ d
    · rw [if_pos hjd] at he
      exact htl j hj e he
    · rw [if_neg hjd] at he
      exact htl j hj e he
  · intro j hj
    dsimp only [Scheduler.getTh]
    rcases List.mem_append.mp hj with hjF | hjd
    · have hjd : j ∉ d := hFd_disj j hjF
      rw [if_neg hjd]
      exact hF_run j hjF
    · rw [if_pos hjd]
      simp [SimThread.to_running]

end Sim

namespace Sim

/-! ## Invariant: full step, registration, initial states -/

theorem Inv_step {σ : Scheduler} (h : Inv σ) : Inv σ.step := by
  unfold Scheduler.step
  dsimp only
  obtain ⟨h1, ht1⟩ := Inv_timeBump h
  obtain ⟨h2, ht2⟩ := Inv_ioPhase h1 ht1
  obtain ⟨h3, ht3, hrun3⟩ := Inv_dispatchPhase h2 ht2
  have h4 : Inv (Scheduler.execPhase
      (({ σ with time := σ.time + 1 } : Scheduler).ioPhase.dispatchPhase)) := by
    unfold Scheduler.execPhase
    exact execFold_inv _ _ h3 hrun3 h3.run_nodup h3.run_reg (fun j hj => hj)
      (fun j hj => ht3 j (h3.run_reg j hj))
  have h5 := Inv_emit Event.tick h4
  unfold Scheduler.completionCheck
  split
  · exact h5
  · split
    · exact Inv_emit Event.finished (Inv_flag false h5)
    · exact h5

theorem Inv_init (m : String) (c q : Int) : Inv (Scheduler.init m c q) := by
  constructor <;> simp [Scheduler.init]

theorem Inv_reset (σ : Scheduler) : Inv σ.reset := by
  constructor <;> simp [Scheduler.reset, Scheduler.stop]

theorem addNew_char (σ : Scheduler) (tid : Nat) (bursts : List (Int × Int)) :
    σ.addNew tid bursts = { σ with
      all_threads := σ.all_threads ++ [σ.next_id],
      ready_queue := σ.ready_queue ++ [σ.next_id],
      store := Function.update σ.store σ.next_id
        ⟨tid, bursts, ThreadState.READY, (bursts.headD (0, 0)).1, []⟩,
      next_id := σ.next_id + 1,
      event_queue := σ.event_queue ++ [(σ.time, Event.added σ.next_id)] } := by
  unfold Scheduler.addNew Scheduler.add_thread
  dsimp only [Scheduler.setTh, Scheduler.getTh, Scheduler.emit]
  simp [Function.update_idem, Function.update_same, SimThread.start_ready]

theorem Inv_addNew {σ : Scheduler} (tid : Nat) (bursts : List (Int × Int))
    (hb : bursts ≠ []) (h : Inv σ) : Inv (σ.addNew tid bursts) := by
  rw [addNew_char]
  have hnotall : σ.next_id ∉ σ.all_threads := by
    intro hmem
    exact absurd (h.reg_lt _ hmem) (by omega)
  have hnotq : σ.next_id ∉ σ.ready_queue := by
    intro hmem
    exact absurd (h.reg_lt _ (h.rq_reg _ hmem)) (by omega)
  have hnotb : σ.next_id ∉ σ.blocked.map Prod.fst := by
    intro hmem
    rcases List.mem_map.mp hmem with ⟨p, hp, hp1⟩
    rw [← hp1] at hnotall
    exact absurd (h.reg_lt _ (h.bl_reg p hp)) (by omega)
  have hnotr : σ.next_id ∉ σ.running := by
    intro hmem
    exact absurd (h.reg_lt _ (h.run_reg _ hmem)) (by omega)
  have hget : ∀ j, Function.update σ.store σ.next_id
      (⟨tid, bursts, ThreadState.READY, (bursts.headD (0, 0)).1, []⟩ : SimThread) j =
      if j = σ.next_id
      then (⟨tid, bursts, ThreadState.READY, (bursts.headD (0, 0)).1, []⟩ : SimThread)
      else σ.getTh j := by
    intro j
    by_cases hj : j = σ.next_id
    · subst hj; rw [if_pos rfl]; exact Function.update_same ..
    · rw [if_neg hj]; exact Function.update_noteq hj ..
  constructor
  case reg_lt =>
    intro j hj
    show j < σ.next_id + 1
    rcases List.mem_append.mp hj with hj | hj
    · exact Nat.lt_succ_of_lt (h.reg_lt j hj)
    · simp only [List.mem_singleton] at hj; omega
  case reg_nodup =>
    exact List.nodup_append.mpr ⟨h.reg_nodup, List.nodup_singleton _,
      fun a ha hb' => by
        simp only [List.mem_singleton] at hb'; subst hb'; exact hnotall ha⟩
  case rq_reg =>
    intro j hj
    rcases List.mem_append.mp hj with hj | hj
    · exact List.mem_append.mpr (Or.inl (h.rq_reg j hj))
    · exact List.mem_append.mpr (Or.inr hj)
  case bl_reg =>
    intro p hp
    exact List.mem_append.mpr (Or.inl (h.bl_reg p hp))
  case run_reg =>
    intro j hj
    exact List.mem_append.mpr (Or.inl (h.run_reg j hj))
  case rq_nodup =>
    exact List.nodup_append.mpr ⟨h.rq_nodup, List.nodup_singleton _,
      fun a ha hb' => by
        simp only [List.mem_singleton] at hb'; subst hb'; exact hnotq ha⟩
  case bl_nodup => exact h.bl_nodup
  case run_nodup => exact h.run_nodup
  case ready_iff =>
    intro j hj
    dsimp only [Scheduler.getTh]
    rw [hget j]
    by_cases hji : j = σ.next_id
    · subst hji
      rw [if_pos rfl]
      simp
    · rw [if_neg hji]
      rcases List.mem_append.mp hj with hjall | hjn
      · rw [h.ready_iff j hjall]
        constructor
        · intro hm; exact List.mem_append.mpr (Or.inl hm)
        · intro hm
          rcases List.mem_append.mp hm with hm | hm
          · exact hm
          · simp only [List.mem_singleton] at hm; exact absurd hm hji
      · simp only [List.mem_singleton] at hjn; exact absurd hjn hji
  case blocked_iff =>
    intro j hj
    dsimp only [Scheduler.getTh]
    rw [hget j]
    by_cases hji : j = σ.next_id
    · subst hji
      rw [if_pos rfl]
      constructor
      · intro hs; exact ThreadState.noConfusion hs
      · intro hm; exact absurd hm hnotb
    · rw [if_neg hji]
      rcases List.mem_append.mp hj with hjall | hjn
      · exact h.blocked_iff j hjall
      · simp only [List.mem_singleton] at hjn; exact absurd hjn hji
  case running_mem =>
    intro j hj hs
    dsimp only [Scheduler.getTh] at hs
    rw [hget j] at hs
    by_cases hji : j = σ.next_id
    · rw [if_pos hji] at hs
      exact ThreadState.noConfusion hs
    · rw [if_neg hji] at hs
      rcases List.mem_append.mp hj with hjall | hjn
      · exact h.running_mem j hjall hs
      · simp only [List.mem_singleton] at hjn; exact absurd hjn hji
  case not_new =>
    intro j hj
    dsimp only [Scheduler.getTh]
    rw [hget j]
    by_cases hji : j = σ.next_id
    · rw [if_pos hji]
      intro hs; exact ThreadState.noConfusion hs
    · rw [if_neg hji]
      rcases List.mem_append.mp hj with hjall | hjn
      · exact h.not_new j hjall
      · simp only [List.mem_singleton] at hjn; exact absurd hjn hji
  case bursts_ne =>
    intro j hj
    dsimp only [Scheduler.getTh]
    rw [hget j]
    by_cases hji : j = σ.next_id
    · rw [if_pos hji]
      exact hb
    · rw [if_neg hji]
      rcases List.mem_append.mp hj with hjall | hjn
      · exact h.bursts_ne j hjall
      · simp only [List.mem_singleton] at hjn; exact absurd hjn hji
  case tl_run =>
    intro j hj e he
    dsimp only [Scheduler.getTh] at he
    rw [hget j] at he
    by_cases hji : j = σ.next_id
    · rw [if_pos hji] at he
      exact absurd he (List.not_mem_nil e)
    · rw [if_neg hji] at he
      rcases List.mem_append.mp hj with hjall | hjn
      · exact h.tl_run j hjall e he
      · simp only [List.mem_singleton] at hjn; exact absurd hjn hji
  case tl_le =>
    intro j hj e he
    dsimp only [Scheduler.getTh] at he
    rw [hget j] at he
    by_cases hji : j = σ.next_id
    · rw [if_pos hji] at he
      exact absurd he (List.not_mem_nil e)
    · rw [if_neg hji] at he
      rcases List.mem_append.mp hj with hjall | hjn
      · exact h.tl_le j hjall e he
      · simp only [List.mem_singleton] at hjn; exact absurd hjn hji
  case tl_chain =>
    intro j hj
    dsimp only [Scheduler.getTh]
    rw [hget j]
    by_cases hji : j = σ.next_id
    · rw [if_pos hji]
      exact List.chain'_nil
    · rw [if_neg hji]
      rcases List.mem_append.mp hj with hjall | hjn
      · exact h.tl_chain j hjall
      · simp only [List.mem_singleton] at hjn; exact absurd hjn hji
  case run_le => exact h.run_le

/-- Every state reachable through the public API satisfies the placement
invariant. -/
theorem Inv_of_reachable {σ : Scheduler} (h : Reachable σ) : Inv σ := by
  induction h with
  | init m c q => exact Inv_init m c q
  | add tid bursts hb _ ih => exact Inv_addNew tid bursts hb ih
  | step _ ih => exact Inv_step ih
  | run_start _ ih => exact Inv_flag true ih
  | halt _ ih => exact Inv_flag false ih
  | reset _ _ => exact Inv_reset _

end Sim

namespace Sim

/-! ## Projection lemmas for whole-step reasoning -/

theorem execFold_fixed (l : List Nat) (σ : Scheduler) :
    (l.foldl Scheduler.execOne σ).running = σ.running ∧
    (l.foldl Scheduler.execOne σ).all_threads = σ.all_threads ∧
    (l.foldl Scheduler.execOne σ).time = σ.time ∧
    (l.foldl Scheduler.execOne σ).next_id = σ.next_id ∧
    (l.foldl Scheduler.execOne σ).cpu_cores = σ.cpu_cores ∧
    (l.foldl Scheduler.execOne σ).running_flag = σ.running_flag := by
  induction l generalizing σ with
  | nil => exact ⟨rfl, rfl, rfl, rfl, rfl, rfl⟩
  | cons i l ih =>
    rw [List.foldl_cons]
    obtain ⟨a, b, c, d, e, f⟩ := ih (σ.execOne i)
    obtain ⟨a', b', c', d', e', f'⟩ := execOne_fixed σ i
    exact ⟨a.trans a', b.trans b', c.trans c', d.trans d', e.trans e', f.trans f'⟩

theorem execFold_getTh_ne (l : List Nat) (σ : Scheduler) {j : Nat} (h : j ∉ l) :
    (l.foldl Scheduler.execOne σ).getTh j = σ.getTh j := by
  induction l generalizing σ with
  | nil => rfl
  | cons i l ih =>
    rw [List.foldl_cons]
    have hji : j ≠ i := fun he => h (he ▸ List.mem_cons_self i l)
    rw [ih (σ.execOne i) (fun hm => h (List.mem_cons_of_mem i hm)),
      execOne_getTh_ne σ hji]

theorem execOne_not_mem (σ : Scheduler) (i : Nat) {j : Nat} (hji : j ≠ i)
    (hq : j ∉ σ.ready_queue) (hb : j ∉ σ.blocked.map Prod.fst) :
    j ∉ (σ.execOne i).ready_queue ∧ j ∉ (σ.execOne i).blocked.map Prod.fst := by
  by_cases h1 : (σ.getTh i).current_burst_remaining - 1 ≤ 0
  · by_cases h2 : 1 < (σ.getTh i).bursts.length
    · by_cases h3 : 0 < ((σ.getTh i).bursts.tail.headD (0, 0)).2
      · rw [execOne_block σ i h1 h2 h3]
        dsimp only [Scheduler.emit, Scheduler.setTh]
        refine ⟨hq, ?_⟩
        intro hm
        rw [List.map_append] at hm
        rcases List.mem_append.mp hm with hm | hm
        · exact hb hm
        · simp only [List.map_cons, List.map_nil, List.mem_singleton] at hm
          exact hji hm
      · rw [execOne_ready σ i h1 h2 h3]
        dsimp only [Scheduler.emit, Scheduler.setTh]
        refine ⟨?_, hb⟩
        intro hm
        rcases List.mem_append.mp hm with hm | hm
        · exact hq hm
        · simp only [List.mem_singleton] at hm
          exact hji hm
    · rw [execOne_term σ i h1 h2]
      dsimp only [Scheduler.emit, Scheduler.setTh]
      exact ⟨hq, hb⟩
  · rw [execOne_noend σ i h1]
    dsimp only [Scheduler.emit, Scheduler.setTh]
    exact ⟨hq, hb⟩

theorem execFold_not_mem (l : List Nat) (σ : Scheduler) {j : Nat} (hl : j ∉ l)
    (hq : j ∉ σ.ready_queue) (hb : j ∉ σ.blocked.map Prod.fst) :
    j ∉ (l.foldl Scheduler.execOne σ).ready_queue ∧
    j ∉ (l.foldl Scheduler.execOne σ).blocked.map Prod.fst := by
  induction l generalizing σ with
  | nil => exact ⟨hq, hb⟩
  | cons i l ih =>
    rw [List.foldl_cons]
    have hji : j ≠ i := fun he => hl (he ▸ List.mem_cons_self i l)
    obtain ⟨hq', hb'⟩ := execOne_not_mem σ i hji hq hb
    exact ih (σ.execOne i) (fun hm => hl (List.mem_cons_of_mem i hm)) hq' hb'

theorem completionCheck_proj (σ : Scheduler) :
    (Scheduler.completionCheck σ).all_threads = σ.all_threads ∧
    (Scheduler.completionCheck σ).cpu_cores = σ.cpu_cores ∧
    (Scheduler.completionCheck σ).next_id = σ.next_id ∧
    (Scheduler.completionCheck σ).time = σ.time ∧
    (Scheduler.completionCheck σ).store = σ.store ∧
    (Scheduler.completionCheck σ).running = σ.running ∧
    (Scheduler.completionCheck σ).ready_queue = σ.ready_queue ∧
    (Scheduler.completionCheck σ).blocked = σ.blocked := by
  unfold Scheduler.completionCheck
  split
  · exact ⟨rfl, rfl, rfl, rfl, rfl, rfl, rfl, rfl⟩
  · split
    · exact ⟨rfl, rfl, rfl, rfl, rfl, rfl, rfl, rfl⟩
    · exact ⟨rfl, rfl, rfl, rfl, rfl, rfl, rfl, rfl⟩

theorem ioPhase_proj (τ : Scheduler) : τ.ioPhase.all_threads = τ.all_threads ∧
    τ.ioPhase.cpu_cores = τ.cpu_cores ∧ τ.ioPhase.next_id = τ.next_id ∧
    τ.ioPhase.time = τ.time ∧ τ.ioPhase.running = τ.running := by
  rw [ioPhase_char]; exact ⟨rfl, rfl, rfl, rfl, rfl⟩

theorem dispatchPhase_proj (τ : Scheduler) : τ.dispatchPhase.all_threads = τ.all_threads ∧
    τ.dispatchPhase.cpu_cores = τ.cpu_cores ∧ τ.dispatchPhase.next_id = τ.next_id ∧
    τ.dispatchPhase.time = τ.time ∧ τ.dispatchPhase.blocked = τ.blocked := by
  rw [dispatchPhase_char]; exact ⟨rfl, rfl, rfl, rfl, rfl⟩

theorem execPhase_proj (τ : Scheduler) : (Scheduler.execPhase τ).all_threads = τ.all_threads ∧
    (Scheduler.execPhase τ).cpu_cores = τ.cpu_cores ∧
    (Scheduler.execPhase τ).next_id = τ.next_id ∧
    (Scheduler.execPhase τ).time = τ.time ∧
    (Scheduler.execPhase τ).running = τ.running ∧
    (Scheduler.execPhase τ).running_flag = τ.running_flag := by
  obtain ⟨a, b, c, d, e, f⟩ := execFold_fixed τ.running τ
  exact ⟨b, e, d, c, a, f⟩

theorem step_proj (σ : Scheduler) :
    (σ.step).all_threads = σ.all_threads ∧ (σ.step).cpu_cores = σ.cpu_cores ∧
    (σ.step).next_id = σ.next_id ∧ (σ.step).time = σ.time + 1 := by
  unfold Scheduler.step
  dsimp only
  set σ1 : Scheduler := { σ with time := σ.time + 1 } with hσ1
  obtain ⟨a5, c5, n5, t5, _, _, _, _⟩ := completionCheck_proj
    ((Scheduler.execPhase σ1.ioPhase.dispatchPhase).emit Event.tick)
  obtain ⟨a3, c3, n3, t3, _, _⟩ := execPhase_proj σ1.ioPhase.dispatchPhase
  obtain ⟨a2, c2, n2, t2, _⟩ := dispatchPhase_proj σ1.ioPhase
  obtain ⟨a1, c1, n1, t1, _⟩ := ioPhase_proj σ1
  refine ⟨?_, ?_, ?_, ?_⟩
  · rw [a5]
    show (Scheduler.execPhase σ1.ioPhase.dispatchPhase).all_threads = σ.all_threads
    rw [a3, a2, a1]
  · rw [c5]
    show (Scheduler.execPhase σ1.ioPhase.dispatchPhase).cpu_cores = σ.cpu_cores
    rw [c3, c2, c1]
  · rw [n5]
    show (Scheduler.execPhase σ1.ioPhase.dispatchPhase).next_id = σ.next_id
    rw [n3, n2, n1]
  · rw [t5]
    show (Scheduler.execPhase σ1.ioPhase.dispatchPhase).time = σ.time + 1
    rw [t3, t2, t1]

end Sim

namespace Sim

/-! ## Terminated threads are frozen by `step` -/

theorem ioPhase_not_mem {τ : Scheduler} {j : Nat} (hb : j ∉ τ.blocked.map Prod.fst) :
    τ.ioPhase.getTh j = τ.getTh j ∧
    (j ∉ τ.ready_queue → j ∉ τ.ioPhase.ready_queue) ∧
    j ∉ τ.ioPhase.blocked.map Prod.fst := by
  have hju : j ∉ unb τ.blocked := fun hm => hb (mem_map_fst_of_mem_unb hm)
  rw [ioPhase_char]
  refine ⟨?_, ?_, ?_⟩
  · show (if j ∈ unb τ.blocked then (τ.store j).to_ready else τ.store j) = τ.getTh j
    rw [if_neg hju]
    rfl
  · intro hq
    show j ∉ τ.ready_queue ++ unb τ.blocked
    intro hm
    rcases List.mem_append.mp hm with hm | hm
    · exact hq hm
    · exact hju hm
  · show j ∉ (keep τ.blocked).map Prod.fst
    exact fun hm => hb (mem_map_fst_of_mem_keep hm)

theorem dispatchPhase_not_mem {τ : Scheduler} {j : Nat}
    (hq : j ∉ τ.ready_queue) (hterm : (τ.getTh j).state ≠ ThreadState.RUNNING) :
    τ.dispatchPhase.getTh j = τ.getTh j ∧ j ∉ τ.dispatchPhase.ready_queue ∧
    j ∉ τ.dispatchPhase.running ∧ τ.dispatchPhase.blocked = τ.blocked := by
  rw [dispatchPhase_char]
  generalize (τ.cpu_cores -
      (((τ.running.filter fun i =>
          decide ((τ.getTh i).state = ThreadState.RUNNING)).length : Int))).toNat = k
  refine ⟨?_, ?_, ?_, rfl⟩
  · show (if j ∈ τ.ready_queue.take k then (τ.store j).to_running else τ.store j) = τ.getTh j
    rw [if_neg (fun hm => hq (List.take_subset k τ.ready_queue hm))]
    rfl
  · show j ∉ τ.ready_queue.drop k
    exact fun hm => hq (List.drop_subset k τ.ready_queue hm)
  · show j ∉ (τ.running.filter fun i =>
        decide ((τ.getTh i).state = ThreadState.RUNNING)) ++ τ.ready_queue.take k
    intro hm
    rcases List.mem_append.mp hm with hm | hm
    · have hdec := List.of_mem_filter hm
      exact hterm (of_decide_eq_true hdec)
    · exact hq (List.take_subset k τ.ready_queue hm)

theorem step_terminated_frozen {σ : Scheduler} (hInv : Inv σ) {i : Nat}
    (hireg : i ∈ σ.all_threads) (hterm : (σ.getTh i).state = ThreadState.TERMINATED) :
    (σ.step).getTh i = σ.getTh i ∧ i ∉ (σ.step).ready_queue ∧
    i ∉ (σ.step).blocked.map Prod.fst ∧ i ∉ (σ.step).running := by
  have hiq : i ∉ σ.ready_queue := by
    intro hm
    have h := (hInv.ready_iff i hireg).mpr hm
    rw [hterm] at h
    exact ThreadState.noConfusion h
  have hib : i ∉ σ.blocked.map Prod.fst := by
    intro hm
    have h := (hInv.blocked_iff i hireg).mpr hm
    rw [hterm] at h
    exact ThreadState.noConfusion h
  unfold Scheduler.step
  dsimp only
  set σ1 : Scheduler := { σ with time := σ.time + 1 } with hσ1
  have h1get : σ1.getTh i = σ.getTh i := rfl
  obtain ⟨h2get, h2qf, h2b⟩ :=
    ioPhase_not_mem (τ := σ1) (j := i) hib
  rw [h1get] at h2get
  have h2q : i ∉ σ1.ioPhase.ready_queue := h2qf hiq
  have h2term : (σ1.ioPhase.getTh i).state ≠ ThreadState.RUNNING := by
    rw [h2get, hterm]
    exact fun h => ThreadState.noConfusion h
  obtain ⟨h3get, h3q, h3r, h3bl⟩ :=
    dispatchPhase_not_mem (τ := σ1.ioPhase) (j := i) h2q h2term
  rw [h2get] at h3get
  have h3b : i ∉ σ1.ioPhase.dispatchPhase.blocked.map Prod.fst := by
    rw [h3bl]
    exact h2b
  set σ3 : Scheduler := σ1.ioPhase.dispatchPhase with hσ3
  have h4get : (Scheduler.execPhase σ3).getTh i = σ.getTh i := by
    unfold Scheduler.execPhase
    rw [execFold_getTh_ne σ3.running σ3 h3r]
    exact h3get
  obtain ⟨h4q, h4b⟩ := execFold_not_mem σ3.running σ3 h3r h3q h3b
  have h4r : i ∉ (Scheduler.execPhase σ3).running := by
    unfold Scheduler.execPhase
    rw [(execFold_fixed σ3.running σ3).1]
    exact h3r
  obtain ⟨_, _, _, _, cc_store, cc_run, cc_rq, cc_bl⟩ :=
    completionCheck_proj ((Scheduler.execPhase σ3).emit Event.tick)
  refine ⟨?_, ?_, ?_, ?_⟩
  · show (Scheduler.completionCheck ((Scheduler.execPhase σ3).emit Event.tick)).getTh i
      = σ.getTh i
    show (Scheduler.completionCheck ((Scheduler.execPhase σ3).emit Event.tick)).store i
      = σ.getTh i
    rw [cc_store]
    exact h4get
  · show i ∉ (Scheduler.completionCheck ((Scheduler.execPhase σ3).emit Event.tick)).ready_queue
    rw [cc_rq]
    exact h4q
  · show i ∉ ((Scheduler.completionCheck
      ((Scheduler.execPhase σ3).emit Event.tick)).blocked).map Prod.fst
    rw [cc_bl]
    exact h4b
  · show i ∉ (Scheduler.completionCheck ((Scheduler.execPhase σ3).emit Event.tick)).running
    rw [cc_run]
    exact h4r

end Sim

namespace Sim

/-! ## Claims C3 (amended), C7, C8, C9 -/

/-- Claim C3 (amended): at every instant between `step()` calls, every
registered thread satisfies exactly one of: it is in the ready queue, it is
in the blocked set, it is in the `running` list *with state `RUNNING`*, or it
is Terminated.  (The raw `running` list may additionally retain stale
entries for threads that left the `RUNNING` state during the most recent
execution phase; the source discards them only in the next step's defensive
filter, so plain `running`-membership cannot participate in the exclusivity
statement.) -/
theorem C3_placement (σ : Scheduler) (h : Reachable σ) :
    ∀ i ∈ σ.all_threads,
      exactlyOne (i ∈ σ.ready_queue) (i ∈ σ.blocked.map Prod.fst)
        (i ∈ σ.running ∧ (σ.getTh i).state = ThreadState.RUNNING)
        ((σ.getTh i).state = ThreadState.TERMINATED) := by
  intro i hi
  have hInv := Inv_of_reachable h
  have hnn := hInv.not_new i hi
  cases hstate : (σ.getTh i).state with
  | NEW => exact absurd hstate hnn
  | READY =>
    refine Or.inl ⟨(hInv.ready_iff i hi).mp hstate, ?_, ?_, ?_⟩
    · intro hb
      have hx := (hInv.blocked_iff i hi).mpr hb
      rw [hstate] at hx
      exact ThreadState.noConfusion hx
    · intro hc
      exact ThreadState.noConfusion hc.2
    · intro hd
      exact ThreadState.noConfusion hd
  | RUNNING =>
    refine Or.inr (Or.inr (Or.inl ⟨?_, ?_, ⟨hInv.running_mem i hi hstate, rfl⟩, ?_⟩))
    · intro ha
      have hx := (hInv.ready_iff i hi).mpr ha
      rw [hstate] at hx
      exact ThreadState.noConfusion hx
    · intro hb
      have hx := (hInv.blocked_iff i hi).mpr hb
      rw [hstate] at hx
      exact ThreadState.noConfusion hx
    · intro hd
      exact ThreadState.noConfusion hd
  | BLOCKED =>
    refine Or.inr (Or.inl ⟨?_, (hInv.blocked_iff i hi).mp hstate, ?_, ?_⟩)
    · intro ha
      have hx := (hInv.ready_iff i hi).mpr ha
      rw [hstate] at hx
      exact ThreadState.noConfusion hx
    · intro hc
      exact ThreadState.noConfusion hc.2
    · intro hd
      exact ThreadState.noConfusion hd
  | TERMINATED =>
    refine Or.inr (Or.inr (Or.inr ⟨?_, ?_, ?_, rfl⟩))
    · intro ha
      have hx := (hInv.ready_iff i hi).mpr ha
      rw [hstate] at hx
      exact ThreadState.noConfusion hx
    · intro hb
      have hx := (hInv.blocked_iff i hi).mpr hb
      rw [hstate] at hx
      exact ThreadState.noConfusion hx
    · intro hc
      exact ThreadState.noConfusion hc.2

/-- Witness for `C3_placement` on a concrete reachable state. -/
theorem C3_placement_witness :
    exactlyOne (0 ∈ scenarioOne.step.ready_queue)
      (0 ∈ scenarioOne.step.blocked.map Prod.fst)
      (0 ∈ scenarioOne.step.running ∧
        (scenarioOne.step.getTh 0).state = ThreadState.RUNNING)
      ((scenarioOne.step.getTh 0).state = ThreadState.TERMINATED) :=
  C3_placement scenarioOne.step
    (Reachable.step (Reachable.add 0 [(1, 0)] (by decide)
      (Reachable.init "Many-to-Many" 1 1)))
    0 (by decide)

/-- Claim C7: for every reachable scheduler state whose configured core
count is non-negative, the size of the `running` list is at most
`cpu_cores`, both before and after a `step()` call. -/
theorem C7_running_le_cores (σ : Scheduler) (h : Reachable σ) (hc : 0 ≤ σ.cpu_cores) :
    ((σ.running.length : Int) ≤ σ.cpu_cores) ∧
    (((σ.step).running.length : Int) ≤ (σ.step).cpu_cores) := by
  have key : ∀ τ : Scheduler, Reachable τ → 0 ≤ τ.cpu_cores →
      (τ.running.length : Int) ≤ τ.cpu_cores := by
    intro τ hτ hcc
    rcases (Inv_of_reachable hτ).run_le with hle | hnil
    · exact hle
    · rw [hnil]
      simpa using hcc
  have hcores : (σ.step).cpu_cores = σ.cpu_cores := (step_proj σ).2.1
  exact ⟨key σ h hc, key σ.step (Reachable.step h) (by rw [hcores]; exact hc)⟩

/-- Witness for `C7_running_le_cores` on a concrete reachable state. -/
theorem C7_running_le_cores_witness :
    ((scenarioTwo.running.length : Int) ≤ scenarioTwo.cpu_cores) ∧
    (((scenarioTwo.step).running.length : Int) ≤ (scenarioTwo.step).cpu_cores) :=
  C7_running_le_cores scenarioTwo
    (Reachable.add 1 [(2, 0)] (by decide)
      (Reachable.add 0 [(2, 0)] (by decide) (Reachable.init "Many-to-Many" 1 1)))
    (by decide)

/-- Claim C8: for every thread of a reachable scheduler state, every timeline
entry was recorded while the thread was `RUNNING` (the recorded state
component is always `RUNNING`; no entries exist for Ready or Blocked ticks),
and the tick components are strictly increasing. -/
theorem C8_timeline (σ : Scheduler) (h : Reachable σ) :
    ∀ i ∈ σ.all_threads,
      (∀ e ∈ (σ.getTh i).timeline, e.2 = ThreadState.RUNNING) ∧
      ((σ.getTh i).timeline.map Prod.fst).Chain' (· < ·) := by
  intro i hi
  have hInv := Inv_of_reachable h
  exact ⟨fun e he => hInv.tl_run i hi e he, hInv.tl_chain i hi⟩

/-- Witness for `C8_timeline` on a concrete reachable state with a non-empty
timeline. -/
theorem C8_timeline_witness :
    (∀ e ∈ (scenarioTwo.step.step.getTh 0).timeline, e.2 = ThreadState.RUNNING) ∧
    ((scenarioTwo.step.step.getTh 0).timeline.map Prod.fst).Chain' (· < ·) :=
  C8_timeline scenarioTwo.step.step
    (Reachable.step (Reachable.step
      (Reachable.add 1 [(2, 0)] (by decide)
        (Reachable.add 0 [(2, 0)] (by decide) (Reachable.init "Many-to-Many" 1 1)))))
    0 (by decide)

theorem stepN_succ (n : Nat) (σ : Scheduler) : stepN (n + 1) σ = (stepN n σ).step :=
  Function.iterate_succ_apply' Scheduler.step n σ

theorem stepN_reachable {σ : Scheduler} (h : Reachable σ) (n : Nat) :
    Reachable (stepN n σ) := by
  induction n with
  | zero => exact h
  | succ m ihm =>
    rw [stepN_succ]
    exact Reachable.step ihm

theorem stepN_all_threads (σ : Scheduler) (n : Nat) :
    (stepN n σ).all_threads = σ.all_threads := by
  induction n with
  | zero => rfl
  | succ m ihm =>
    rw [stepN_succ, (step_proj (stepN m σ)).1, ihm]

/-- Claim C9: once a registered thread of a reachable state is `TERMINATED`,
no sequence of further `step()` calls changes the thread object (state,
workload, countdown or timeline), and after every such step the thread is a
member of neither the ready queue, nor the blocked set, nor the running
list. -/
theorem C9_terminated_frozen (σ : Scheduler) (h : Reachable σ) (i : Nat)
    (hireg : i ∈ σ.all_threads)
    (hterm : (σ.getTh i).state = ThreadState.TERMINATED) :
    ∀ n : Nat, ((stepN n σ).getTh i = σ.getTh i) ∧
      (1 ≤ n → i ∉ (stepN n σ).ready_queue ∧
        i ∉ (stepN n σ).blocked.map Prod.fst ∧ i ∉ (stepN n σ).running) := by
  intro n
  induction n with
  | zero => exact ⟨rfl, fun h1 => absurd h1 (by omega)⟩
  | succ n ih =>
    have hreach : Reachable (stepN n σ) := stepN_reachable h n
    have hreg : i ∈ (stepN n σ).all_threads := by
      rw [stepN_all_threads]
      exact hireg
    have hterm' : ((stepN n σ).getTh i).state = ThreadState.TERMINATED := by
      rw [ih.1]
      exact hterm
    have hfrozen := step_terminated_frozen (Inv_of_reachable hreach) hreg hterm'
    refine ⟨?_, fun _ => ?_⟩
    · rw [stepN_succ, hfrozen.1, ih.1]
    · rw [stepN_succ]
      exact ⟨hfrozen.2.1, hfrozen.2.2.1, hfrozen.2.2.2⟩

/-- Witness for `C9_terminated_frozen`: the terminated thread of
`scenarioOne` is untouched by the next two steps. -/
theorem C9_terminated_frozen_witness :
    (scenarioOne.step.getTh 0).state = ThreadState.TERMINATED ∧
    (stepN 2 scenarioOne.step).getTh 0 = scenarioOne.step.getTh 0 ∧
    0 ∉ (stepN 2 scenarioOne.step).running := by
  have happ := C9_terminated_frozen scenarioOne.step
    (Reachable.step (Reachable.add 0 [(1, 0)] (by decide)
      (Reachable.init "Many-to-Many" 1 1)))
    0 (by decide) (by decide) 2
  exact ⟨by decide, happ.1, (happ.2 (by omega)).2.2⟩

end Sim

namespace Sim

/-! ## Claims C2 and C10 -/

/-- Claim C2: in the execution phase, whenever a Running thread's countdown
reaches `≤ 0` and its workload still holds more than one burst, the
completed front burst is popped and the thread blocks if and only if the new
front burst's ioLength is `> 0`, in which case it enters the blocked set
with exactly that ioLength; otherwise it is set Ready, its countdown is
reloaded from the new front burst's cpuLength, it is appended to the tail of
the ready queue, and a `ready` event is emitted. -/
theorem C2_burst_completion (σ : Scheduler) (i : Nat)
    (hrun : (σ.getTh i).state = ThreadState.RUNNING)
    (hcbr : (σ.getTh i).current_burst_remaining - 1 ≤ 0)
    (hlen : 1 < (σ.getTh i).bursts.length) :
    ((σ.execOne i).getTh i).bursts = (σ.getTh i).bursts.tail ∧
    (((σ.execOne i).getTh i).state = ThreadState.BLOCKED ↔
      0 < ((σ.getTh i).bursts.tail.headD (0, 0)).2) ∧
    (0 < ((σ.getTh i).bursts.tail.headD (0, 0)).2 →
      (σ.execOne i).blocked =
        σ.blocked ++ [(i, ((σ.getTh i).bursts.tail.headD (0, 0)).2)] ∧
      (σ.execOne i).ready_queue = σ.ready_queue ∧
      (σ.execOne i).event_queue = σ.event_queue ++ [(σ.time, Event.blocked i)]) ∧
    (((σ.getTh i).bursts.tail.headD (0, 0)).2 ≤ 0 →
      ((σ.execOne i).getTh i).state = ThreadState.READY ∧
      ((σ.execOne i).getTh i).current_burst_remaining =
        ((σ.getTh i).bursts.tail.headD (0, 0)).1 ∧
      (σ.execOne i).blocked = σ.blocked ∧
      (σ.execOne i).ready_queue = σ.ready_queue ++ [i] ∧
      (σ.execOne i).event_queue = σ.event_queue ++ [(σ.time, Event.ready i)]) := by
  by_cases h3 : 0 < ((σ.getTh i).bursts.tail.headD (0, 0)).2
  · rw [execOne_block σ i hcbr hlen h3]
    dsimp only [Scheduler.emit, Scheduler.setTh, Scheduler.getTh]
    rw [Function.update_same]
    exact ⟨rfl, ⟨fun _ => h3, fun _ => rfl⟩, fun _ => ⟨rfl, rfl, rfl⟩,
      fun hle => absurd h3 (not_lt.mpr hle)⟩
  · rw [execOne_ready σ i hcbr hlen h3]
    dsimp only [Scheduler.emit, Scheduler.setTh, Scheduler.getTh]
    rw [Function.update_same]
    exact ⟨rfl, ⟨fun hx => ThreadState.noConfusion hx, fun hx => absurd hx h3⟩,
      fun hx => absurd hx h3, fun _ => ⟨rfl, rfl, rfl, rfl, rfl⟩⟩

/-- Witness for `C2_burst_completion`: the blocking case, on a concrete
scheduler holding one running thread with workload `[(1,9),(2,5),(1,0)]`. -/
theorem C2_burst_completion_witness :
    (((scenarioExec.getTh 0).state = ThreadState.RUNNING ∧
      (scenarioExec.getTh 0).current_burst_remaining - 1 ≤ 0 ∧
      1 < (scenarioExec.getTh 0).bursts.length) ∧
    (((scenarioExec.execOne 0).getTh 0).state = ThreadState.BLOCKED ↔
      0 < ((scenarioExec.getTh 0).bursts.tail.headD (0, 0)).2)) := by
  refine ⟨by decide, ?_⟩
  exact (C2_burst_completion scenarioExec 0 (by decide) (by decide) (by decide)).2.1

/-- Claim C10: `add_thread` applied to a thread whose state is not `NEW`
still appends it to `all_threads`, pushes it onto the tail of the ready
queue, and emits an `added` event, while the thread object itself (state and
countdown included) is left unchanged. -/
theorem C10_add_nonnew (σ : Scheduler) (i : Nat)
    (h : (σ.getTh i).state ≠ ThreadState.NEW) :
    σ.add_thread i = { σ with
      all_threads := σ.all_threads ++ [i],
      ready_queue := σ.ready_queue ++ [i],
      event_queue := σ.event_queue ++ [(σ.time, Event.added i)] } ∧
    (σ.add_thread i).getTh i = σ.getTh i := by
  have hchar : σ.add_thread i = { σ with
      all_threads := σ.all_threads ++ [i],
      ready_queue := σ.ready_queue ++ [i],
      event_queue := σ.event_queue ++ [(σ.time, Event.added i)] } := by
    unfold Scheduler.add_thread
    dsimp only [Scheduler.setTh, Scheduler.getTh, Scheduler.emit]
    have hsr : (σ.store i).start_ready = σ.store i := SimThread.start_ready_of_ne h
    rw [hsr, Function.update_eq_self]
  refine ⟨hchar, ?_⟩
  rw [hchar]
  rfl

/-- Witness for `C10_add_nonnew`: re-adding the already-admitted (`READY`)
thread of `scenarioOne`. -/
theorem C10_add_nonnew_witness :
    ((scenarioOne.getTh 0).state ≠ ThreadState.NEW) ∧
    (scenarioOne.add_thread 0).getTh 0 = scenarioOne.getTh 0 :=
  ⟨by decide, (C10_add_nonnew scenarioOne 0 (by decide)).2⟩

end Sim

namespace Sim

/-! ## Claim C4 (amended): no cpu_cores validation -/

theorem dispatchPhase_nocores {τ : Scheduler} (hc : τ.cpu_cores ≤ 0)
    (hr : τ.running = []) : τ.dispatchPhase.running = [] := by
  rw [dispatchPhase_char]
  show (τ.running.filter fun i => decide ((τ.getTh i).state = ThreadState.RUNNING)) ++
      τ.ready_queue.take _ = []
  rw [hr]
  simp only [List.filter_nil, List.length_nil, List.nil_append, Nat.cast_zero, sub_zero]
  rw [Int.toNat_eq_zero.mpr hc]
  exact List.take_zero _

/-- Claim C4 (amended): the `Scheduler` constructor performs no validation
of `cpu_cores`: zero or negative values are accepted, stored, and carried
into the run, where the dispatch phase computes no vacancies, so starting
from a state with no running threads a `step` leaves the running set
empty forever (no thread is ever dispatched). -/
theorem C4_no_validation (m : String) (c q : Int) (σ : Scheduler)
    (hc : σ.cpu_cores ≤ 0) (hr : σ.running = []) :
    (Scheduler.init m c q).cpu_cores = c ∧ (σ.step).running = [] := by
  refine ⟨rfl, ?_⟩
  unfold Scheduler.step
  dsimp only
  set σ1 : Scheduler := { σ with time := σ.time + 1 } with hσ1
  obtain ⟨_, _, _, _, _, cc_run, _, _⟩ :=
    completionCheck_proj ((Scheduler.execPhase σ1.ioPhase.dispatchPhase).emit Event.tick)
  rw [cc_run]
  show (Scheduler.execPhase σ1.ioPhase.dispatchPhase).running = []
  have h1r : σ1.ioPhase.running = σ.running := (ioPhase_proj σ1).2.2.2.2
  have h1c : σ1.ioPhase.cpu_cores = σ.cpu_cores := (ioPhase_proj σ1).2.1
  have h2r : σ1.ioPhase.dispatchPhase.running = [] :=
    dispatchPhase_nocores (by rw [h1c]; exact hc) (by rw [h1r]; exact hr)
  unfold Scheduler.execPhase
  rw [h2r]
  exact h2r

/-- Witness for `C4_no_validation` on the concrete zero-core scenario. -/
theorem C4_no_validation_witness :
    (scenarioZero.cpu_cores ≤ 0 ∧ scenarioZero.running = []) ∧
    (Scheduler.init "Many-to-Many" 0 1).cpu_cores = 0 ∧
    (scenarioZero.step).running = [] :=
  ⟨⟨by decide, by decide⟩,
   C4_no_validation "Many-to-Many" 0 1 scenarioZero (by decide) (by decide)⟩

/-! ## Event bookkeeping for the completion claim -/

theorem allTerminated_stop_emit (τ : Scheduler) (e : Event) :
    Scheduler.allTerminated ((τ.stop).emit e) = Scheduler.allTerminated τ := rfl

theorem execOne_events (σ : Scheduler) (i : Nat) :
    ∃ d, (σ.execOne i).event_queue = σ.event_queue ++ d ∧
      ∀ e ∈ d, e.1 = σ.time ∧ e.2 ≠ Event.finished := by
  by_cases h1 : (σ.getTh i).current_burst_remaining - 1 ≤ 0
  · by_cases h2 : 1 < (σ.getTh i).bursts.length
    · by_cases h3 : 0 < ((σ.getTh i).bursts.tail.headD (0, 0)).2
      · rw [execOne_block σ i h1 h2 h3]
        refine ⟨[(σ.time, Event.blocked i)], rfl, ?_⟩
        intro e he
        simp only [List.mem_singleton] at he
        subst he
        exact ⟨rfl, fun hx => Event.noConfusion hx⟩
      · rw [execOne_ready σ i h1 h2 h3]
        refine ⟨[(σ.time, Event.ready i)], rfl, ?_⟩
        intro e he
        simp only [List.mem_singleton] at he
        subst he
        exact ⟨rfl, fun hx => Event.noConfusion hx⟩
    · rw [execOne_term σ i h1 h2]
      refine ⟨[(σ.time, Event.terminated i)], rfl, ?_⟩
      intro e he
      simp only [List.mem_singleton] at he
      subst he
      exact ⟨rfl, fun hx => Event.noConfusion hx⟩
  · rw [execOne_noend σ i h1]
    exact ⟨[], (List.append_nil _).symm, fun e he => absurd he (List.not_mem_nil e)⟩

theorem execFold_events (l : List Nat) (σ : Scheduler) :
    ∃ d, (l.foldl Scheduler.execOne σ).event_queue = σ.event_queue ++ d ∧
      ∀ e ∈ d, e.1 = σ.time ∧ e.2 ≠ Event.finished := by
  induction l generalizing σ with
  | nil => exact ⟨[], (List.append_nil _).symm, fun e he => absurd he (List.not_mem_nil e)⟩
  | cons i l ih =>
    rw [List.foldl_cons]
    obtain ⟨d1, hd1, hp1⟩ := execOne_events σ i
    obtain ⟨d2, hd2, hp2⟩ := ih (σ.execOne i)
    refine ⟨d1 ++ d2, ?_, ?_⟩
    · rw [hd2, hd1, List.append_assoc]
    · intro e he
      rcases List.mem_append.mp he with he | he
      · exact hp1 e he
      · have := hp2 e he
        rw [(execOne_fixed σ i).2.2.1] at this
        exact this

end Sim

namespace Sim

/-- Event-level specification of one `step`: the event queue grows by a
block of events all stamped with the new tick, containing exactly one
`finished` event when the step ends with a complete non-empty system and
none otherwise; `running_flag` is cleared exactly in the former case. -/
theorem step_spec (σ : Scheduler) :
    ∃ d : List (Nat × Event),
      (σ.step).event_queue = σ.event_queue ++ d ∧
      (∀ e ∈ d, e.1 = σ.time + 1) ∧
      (d.countP (fun e => decide (e.2 = Event.finished)) =
        if allDone σ.step then 1 else 0) ∧
      ((σ.step).running_flag = if allDone σ.step then false else σ.running_flag) := by
  classical
  unfold Scheduler.step
  dsimp only
  set σ1 : Scheduler := { σ with time := σ.time + 1 } with hσ1
  set σ2 : Scheduler := σ1.ioPhase with hσ2
  set σ3 : Scheduler := σ2.dispatchPhase with hσ3
  have ht2 : σ2.time = σ.time + 1 := (ioPhase_proj σ1).2.2.2.1
  have ht3 : σ3.time = σ.time + 1 := by
    rw [hσ3, (dispatchPhase_proj σ2).2.2.2.1, ht2]
  have E2 : ∃ d, σ2.event_queue = σ.event_queue ++ d ∧
      ∀ e ∈ d, e.1 = σ.time + 1 ∧ e.2 ≠ Event.finished := by
    rw [hσ2, ioPhase_char]
    refine ⟨_, rfl, ?_⟩
    intro e he
    rcases List.mem_map.mp he with ⟨j, _, rfl⟩
    exact ⟨rfl, fun hx => Event.noConfusion hx⟩
  have E3 : ∃ d, σ3.event_queue = σ2.event_queue ++ d ∧
      ∀ e ∈ d, e.1 = σ.time + 1 ∧ e.2 ≠ Event.finished := by
    rw [hσ3, dispatchPhase_char]
    refine ⟨_, rfl, ?_⟩
    intro e he
    rcases List.mem_map.mp he with ⟨j, _, rfl⟩
    exact ⟨ht2, fun hx => Event.noConfusion hx⟩
  obtain ⟨d2, hd2, hp2⟩ := E2
  obtain ⟨d3, hd3, hp3⟩ := E3
  obtain ⟨d4, hd4, hp4⟩ := execFold_events σ3.running σ3
  have hd4' : (Scheduler.execPhase σ3).event_queue = σ3.event_queue ++ d4 := hd4
  have hp4' : ∀ e ∈ d4, e.1 = σ.time + 1 ∧ e.2 ≠ Event.finished := by
    intro e he
    obtain ⟨hte, hke⟩ := hp4 e he
    exact ⟨by rw [hte, ht3], hke⟩
  have ht4 : (Scheduler.execPhase σ3).time = σ.time + 1 := by
    rw [(execPhase_proj σ3).2.2.2.1, ht3]
  have hfl3 : σ3.running_flag = σ.running_flag := by
    rw [hσ3, dispatchPhase_char]
    show σ2.running_flag = σ.running_flag
    rw [hσ2, ioPhase_char]
  have hfl4 : (Scheduler.execPhase σ3).running_flag = σ.running_flag := by
    rw [(execPhase_proj σ3).2.2.2.2.2, hfl3]
  set σ5 : Scheduler := (Scheduler.execPhase σ3).emit Event.tick with hσ5
  have hd5 : σ5.event_queue =
      σ.event_queue ++ (d2 ++ d3 ++ d4 ++ [(σ.time + 1, Event.tick)]) := by
    rw [hσ5]
    show (Scheduler.execPhase σ3).event_queue ++ [((Scheduler.execPhase σ3).time, Event.tick)]
      = σ.event_queue ++ (d2 ++ d3 ++ d4 ++ [(σ.time + 1, Event.tick)])
    rw [hd4', hd3, hd2, ht4]
    simp [List.append_assoc]
  have hp5 : ∀ e ∈ d2 ++ d3 ++ d4 ++ [(σ.time + 1, Event.tick)], e.1 = σ.time + 1 := by
    intro e he
    rcases List.mem_append.mp he with he | he
    · rcases List.mem_append.mp he with he | he
      · rcases List.mem_append.mp he with he | he
        · exact (hp2 e he).1
        · exact (hp3 e he).1
      · exact (hp4' e he).1
    · simp only [List.mem_singleton] at he
      subst he
      rfl
  have hcnt0 : (d2 ++ d3 ++ d4 ++ [(σ.time + 1, Event.tick)]).countP
      (fun e => decide (e.2 = Event.finished)) = 0 := by
    rw [List.countP_eq_zero]
    intro e he
    rcases List.mem_append.mp he with he | he
    · rcases List.mem_append.mp he with he | he
      · rcases List.mem_append.mp he with he | he
        · simpa using (hp2 e he).2
        · simpa using (hp3 e he).2
      · simpa using (hp4' e he).2
    · simp only [List.mem_singleton] at he
      subst he
      simp
  have ht5 : σ5.time = σ.time + 1 := ht4
  have hfl5 : σ5.running_flag = σ.running_flag := hfl4
  have hall5 : σ5.all_threads = (Scheduler.execPhase σ3).all_threads := rfl
  unfold Scheduler.completionCheck
  split
  case isTrue hemp =>
    have hnotdone : ¬ allDone σ5 := by
      intro hdone
      exact hdone.1 (List.isEmpty_iff.mp hemp)
    rw [if_neg hnotdone, if_neg hnotdone]
    exact ⟨d2 ++ d3 ++ d4 ++ [(σ.time + 1, Event.tick)], hd5, hp5, hcnt0, hfl5⟩
  case isFalse hemp =>
    split
    case isTrue hterm =>
      have hdone : allDone ((σ5.stop).emit Event.finished) := by
        constructor
        · show σ5.all_threads ≠ []
          intro hnil
          exact hemp (by rw [List.isEmpty_iff]; exact hnil)
        · rw [allTerminated_stop_emit]
          exact hterm
      rw [if_pos hdone, if_pos hdone]
      refine ⟨d2 ++ d3 ++ d4 ++ [(σ.time + 1, Event.tick)] ++ [(σ.time + 1, Event.finished)],
        ?_, ?_, ?_, rfl⟩
      · show σ5.event_queue ++ [(σ5.time, Event.finished)] = _
        rw [hd5, ht5, List.append_assoc]
      · intro e he
        rcases List.mem_append.mp he with he | he
        · exact hp5 e he
        · simp only [List.mem_singleton] at he
          subst he
          rfl
      · rw [List.countP_append, hcnt0]
        simp
    case isFalse hterm =>
      have hnotdone : ¬ allDone σ5 := by
        intro hdone
        exact hterm hdone.2
      rw [if_neg hnotdone, if_neg hnotdone]
      exact ⟨d2 ++ d3 ++ d4 ++ [(σ.time + 1, Event.tick)], hd5, hp5, hcnt0, hfl5⟩

end Sim

namespace Sim

/-! ## The empty-system step and the guarded run loop -/

/-- A `step` on a reachable scheduler with no registered threads only bumps
the clock and appends the `tick` event: phases 1-3 are no-ops and the
completion check is skipped. -/
theorem step_empty (σ : Scheduler) (hInv : Inv σ) (hempty : σ.all_threads = []) :
    σ.step = { σ with
      time := σ.time + 1,
      event_queue := σ.event_queue ++ [(σ.time + 1, Event.tick)] } := by
  have hq : σ.ready_queue = [] := by
    cases hql : σ.ready_queue with
    | nil => rfl
    | cons a l =>
      have hmem := hInv.rq_reg a (by rw [hql]; exact List.mem_cons_self a l)
      rw [hempty] at hmem
      exact absurd hmem (List.not_mem_nil a)
  have hb : σ.blocked = [] := by
    cases hbl : σ.blocked with
    | nil => rfl
    | cons p l =>
      have hmem := hInv.bl_reg p (by rw [hbl]; exact List.mem_cons_self p l)
      rw [hempty] at hmem
      exact absurd hmem (List.not_mem_nil p.1)
  have hr : σ.running = [] := by
    cases hrl : σ.running with
    | nil => rfl
    | cons a l =>
      have hmem := hInv.run_reg a (by rw [hrl]; exact List.mem_cons_self a l)
      rw [hempty] at hmem
      exact absurd hmem (List.not_mem_nil a)
  obtain ⟨m, c, qq, rq, bl, ru, al, ti, ev, fl, st, ni⟩ := σ
  dsimp only at hq hb hr hempty
  subst hq
  subst hb
  subst hr
  subst hempty
  unfold Scheduler.step Scheduler.ioPhase Scheduler.execPhase Scheduler.completionCheck
  dsimp only
  rw [dispatchPhase_char]
  simp [Scheduler.dispatchPhase, Scheduler.emit]

theorem runN_succ (n : Nat) (σ : Scheduler) :
    runN (n + 1) σ = guardedStep (runN n σ) :=
  Function.iterate_succ_apply' guardedStep n σ

theorem guardedStep_all_threads (σ : Scheduler) :
    (guardedStep σ).all_threads = σ.all_threads := by
  unfold guardedStep
  split
  · exact (step_proj σ).1
  · rfl

theorem runN_all_threads (n : Nat) (σ : Scheduler) :
    (runN n σ).all_threads = σ.all_threads := by
  induction n with
  | zero => rfl
  | succ m ih => rw [runN_succ, guardedStep_all_threads, ih]

theorem countFinished_append (σ' : Scheduler) (ev : List (Nat × Event))
    (d : List (Nat × Event)) (h : σ'.event_queue = ev ++ d) :
    countFinished σ' = ev.countP (fun e => decide (e.2 = Event.finished)) +
      d.countP (fun e => decide (e.2 = Event.finished)) := by
  unfold countFinished
  rw [h, List.countP_append]

end Sim

namespace Sim

/-- Claim C5: over any flag-guarded run (the `while self.running_flag:
self.step()` loop) started from a reachable state whose event queue holds no
`finished` event and whose completion condition does not yet hold: the
`finished` event appears at most once; it is never emitted when
`all_threads` is empty; it is present exactly once as soon as the completion
condition holds; and any `finished` event on the queue is stamped with the
exact tick of the step in which the last thread terminated (a step that
turns the completion condition true, with an explicit thread that became
`TERMINATED` on that very tick).  Moreover `step()` on a scheduler with no
threads only bumps the clock and emits `tick`, skipping the completion
check. -/
theorem C5_finished_once (σ0 : Scheduler) (h : Reachable σ0)
    (h0 : countFinished σ0 = 0) (hnd : ¬ allDone σ0) :
    (σ0.all_threads = [] → σ0.step = { σ0 with
      time := σ0.time + 1,
      event_queue := σ0.event_queue ++ [(σ0.time + 1, Event.tick)] }) ∧
    (∀ n, countFinished (runN n { σ0 with running_flag := true }) ≤ 1) ∧
    (σ0.all_threads = [] →
      ∀ n, countFinished (runN n { σ0 with running_flag := true }) = 0) ∧
    (∀ n, allDone (runN n { σ0 with running_flag := true }) →
      countFinished (runN n { σ0 with running_flag := true }) = 1) ∧
    (∀ n t, (t, Event.finished) ∈ (runN n { σ0 with running_flag := true }).event_queue →
      ∃ k, k < n ∧ ¬ allDone (runN k { σ0 with running_flag := true }) ∧
        allDone (runN (k + 1) { σ0 with running_flag := true }) ∧
        t = (runN (k + 1) { σ0 with running_flag := true }).time ∧
        ∃ i ∈ σ0.all_threads,
          ((runN k { σ0 with running_flag := true }).getTh i).state
            ≠ ThreadState.TERMINATED ∧
          ((runN (k + 1) { σ0 with running_flag := true }).getTh i).state
            = ThreadState.TERMINATED) := by
  set σs : Scheduler := { σ0 with running_flag := true } with hσs
  have main : ∀ n,
      (countFinished (runN n σs) = 0 ∧ ¬ allDone (runN n σs) ∧
        (runN n σs).running_flag = true ∧
        (∀ t, (t, Event.finished) ∉ (runN n σs).event_queue)) ∨
      ((runN n σs).running_flag = false ∧ countFinished (runN n σs) = 1 ∧
        ∃ k, k < n ∧ ¬ allDone (runN k σs) ∧ allDone (runN (k + 1) σs) ∧
          (∀ t, (t, Event.finished) ∈ (runN n σs).event_queue →
            t = (runN (k + 1) σs).time)) := by
    intro n
    induction n with
    | zero =>
      left
      refine ⟨h0, hnd, rfl, ?_⟩
      intro t hmem
      have hz := List.countP_eq_zero.mp h0 _ hmem
      simp at hz
    | succ n ih =>
      rcases ih with ⟨hcf, hnd', hfl, hmem⟩ | ⟨hfl, hcf, k, hk, hd1, hd2, hte⟩
      · have hstep : runN (n + 1) σs = ((runN n σs)).step := by
          rw [runN_succ]
          unfold guardedStep
          rw [hfl]
          simp
        obtain ⟨d, hd, hdt, hdc, hdf⟩ := step_spec (runN n σs)
        by_cases hdone : allDone (runN (n + 1) σs)
        · right
          have hdone' : allDone ((runN n σs).step) := by rw [← hstep]; exact hdone
          refine ⟨?_, ?_, n, by omega, hnd', hdone, ?_⟩
          · rw [hstep, hdf, if_pos hdone']
          · rw [hstep, countFinished_append _ _ _ hd, hdc, if_pos hdone']
            unfold countFinished at hcf
            rw [hcf]
          · intro t hmemt
            rw [hstep, hd] at hmemt
            rcases List.mem_append.mp hmemt with hm | hm
            · exact absurd hm (hmem t)
            · have hmt := hdt _ hm
              rw [hstep, (step_proj (runN n σs)).2.2.2]
              exact hmt
        · left
          have hdone' : ¬ allDone ((runN n σs).step) := by rw [← hstep]; exact hdone
          refine ⟨?_, hdone, ?_, ?_⟩
          · rw [hstep, countFinished_append _ _ _ hd, hdc, if_neg hdone']
            unfold countFinished at hcf
            rw [hcf]
          · rw [hstep, hdf, if_neg hdone', hfl]
          · intro t hmemt
            rw [hstep, hd] at hmemt
            rcases List.mem_append.mp hmemt with hm | hm
            · exact hmem t hm
            · have h0' := List.countP_eq_zero.mp (by rw [hdc, if_neg hdone']) _ hm
              simp at h0'
      · have hstep : runN (n + 1) σs = runN n σs := by
          rw [runN_succ]
          unfold guardedStep
          rw [hfl]
          simp
        right
        rw [hstep]
        exact ⟨hfl, hcf, k, by omega, hd1, hd2, hte⟩
  refine ⟨?_, ?_, ?_, ?_, ?_⟩
  · intro hemp
    exact step_empty σ0 (Inv_of_reachable h) hemp
  · intro n
    rcases main n with ⟨hcf, _, _, _⟩ | ⟨_, hcf, _⟩
    · rw [hcf]
      omega
    · rw [hcf]
  · intro hemp n
    rcases main n with ⟨hcf, _, _, _⟩ | ⟨_, _, k, _, _, hd2, _⟩
    · exact hcf
    · exfalso
      have hconst : (runN (k + 1) σs).all_threads = σ0.all_threads :=
        runN_all_threads (k + 1) σs
      exact hd2.1 (hconst.trans hemp)
  · intro n hdn
    rcases main n with ⟨_, hnd', _, _⟩ | ⟨_, hcf, _⟩
    · exact absurd hdn hnd'
    · exact hcf
  · intro n t hmemt
    rcases main n with ⟨_, _, _, hmem⟩ | ⟨_, _, k, hk, hd1, hd2, hte⟩
    · exact absurd hmemt (hmem t)
    · obtain ⟨hne, hterm⟩ := hd2
      have hallk : (runN k σs).all_threads = σ0.all_threads := runN_all_threads k σs
      have hallk1 : (runN (k + 1) σs).all_threads = σ0.all_threads :=
        runN_all_threads (k + 1) σs
      have hnek : (runN k σs).all_threads ≠ [] := by
        rw [hallk, ← hallk1]
        exact hne
      have hterm_false : ¬ Scheduler.allTerminated (runN k σs) = true := by
        intro hx
        exact hd1 ⟨hnek, hx⟩
      unfold Scheduler.allTerminated at hterm_false
      rw [List.all_eq_true] at hterm_false
      push_neg at hterm_false
      obtain ⟨i, hi_mem, hi_ne⟩ := hterm_false
      have hi0 : i ∈ σ0.all_threads := by rw [← hallk]; exact hi_mem
      have hmem1 : i ∈ (runN (k + 1) σs).all_threads := by
        rw [hallk1]
        exact hi0
      unfold Scheduler.allTerminated at hterm
      have hT := List.all_eq_true.mp hterm i hmem1
      simp only [ne_eq, decide_eq_true_eq] at hT hi_ne
      exact ⟨k, hk, hd1, ⟨hne, hterm⟩, hte t hmemt, i, hi0, hi_ne, hT⟩

/-- Witness for `C5_finished_once`: the two-thread scenario run to
completion under the guarded loop emits `finished` exactly once. -/
theorem C5_finished_once_witness :
    countFinished scenarioTwo = 0 ∧ ¬ allDone scenarioTwo ∧
    allDone (runN 6 { scenarioTwo with running_flag := true }) ∧
    countFinished (runN 6 { scenarioTwo with running_flag := true }) = 1 := by
  have happ := C5_finished_once scenarioTwo
    (Reachable.add 1 [(2, 0)] (by decide)
      (Reachable.add 0 [(2, 0)] (by decide) (Reachable.init "Many-to-Many" 1 1)))
    (by decide) (by decide)
  exact ⟨by decide, by decide, by decide, happ.2.2.2.1 6 (by decide)⟩

end Sim
